import Mathlib

/-!
# Trie dictionary of `lab5_tries.cpp`

A shallow embedding of the classes `TrieNode` and `Trie` of `src/lab5_tries.cpp`
and theorems about `insert`, `search`, `startsWith` and `findWordsWithPrefix`.

Modelling decisions.

* A `std::string` is a `List Char`.
* `unordered_map<char, TrieNode*> children` is an association list
  `List (Char × TrieNode)`.  The map owns its children exclusively, so a node is
  a value (a finite tree); the keys of a map are unique, which is the predicate
  `TrieNode.uniqueKeys`.  The list order is the order in which
  `for (auto& child : node->children)` visits the entries.  A new key is put at
  the end of the list; since the order of an `unordered_map` is unspecified,
  `TrieNode.reorderOf` relates a trie to every other enumeration order of the
  same maps.
* The in-place update through the `node` pointer is rendered as a function that
  returns the updated tree.
* The lines written to `cout` are not modelled.
-/

/-- The class `TrieNode`: the map `children` and the flag `isEndOfWord`. -/
inductive TrieNode where
  | mk (children : List (Char × TrieNode)) (isEndOfWord : Bool)

namespace TrieNode

/-- The field `children`. -/
def children : TrieNode → List (Char × TrieNode)
  | mk cs _ => cs

/-- The field `isEndOfWord`. -/
def isEndOfWord : TrieNode → Bool
  | mk _ e => e

/-- The constructor `TrieNode()`: no children, `isEndOfWord(false)`. -/
def new : TrieNode := mk [] false

/-- The lookup `children.count(ch)` followed by `children[ch]`: `none` when the
count is zero, otherwise the child stored under `ch`. -/
def childAt : List (Char × TrieNode) → Char → Option TrieNode
  | [], _ => none
  | (k, n) :: rest, ch => if k = ch then some n else childAt rest ch

/-- The assignment `children[ch] = n`: replaces the entry of `ch`, or adds one
(at the end of the enumeration order) when there is none. -/
def setChild : List (Char × TrieNode) → Char → TrieNode → List (Char × TrieNode)
  | [], ch, n => [(ch, n)]
  | (k, m) :: rest, ch, n =>
    if k = ch then (ch, n) :: rest else (k, m) :: setChild rest ch n

/-- The loop of `Trie::insert` started at `node`, and the final
`node->isEndOfWord = true`; the result is the updated subtree. -/
def insert : TrieNode → List Char → TrieNode
  | mk cs _, [] => mk cs true
  | mk cs e, ch :: rest =>
    match childAt cs ch with
    | none => mk (setChild cs ch (insert TrieNode.new rest)) e
    | some child => mk (setChild cs ch (insert child rest)) e

/-- The loop of `Trie::search` started at `node`, and the final test of
`node->isEndOfWord`. -/
def search : TrieNode → List Char → Bool
  | mk _ e, [] => e
  | mk cs _, ch :: rest =>
    match childAt cs ch with
    | none => false
    | some child => search child rest

/-- The loop of `Trie::startsWith` started at `node`. -/
def startsWith : TrieNode → List Char → Bool
  | _, [] => true
  | mk cs _, ch :: rest =>
    match childAt cs ch with
    | none => false
    | some child => startsWith child rest

/-- The node at which the loop `for (char ch : word)` shared by the three queries
ends when it is started at `node`; `none` when a test `children.count(ch)`
fails. -/
def nodeAt : TrieNode → List Char → Option TrieNode
  | node, [] => some node
  | mk cs _, ch :: rest =>
    match childAt cs ch with
    | none => none
    | some child => nodeAt child rest

mutual
/-- The method `Trie::findWordsWithPrefixHelper`; the vector `results` is passed
in and the extended vector is returned. -/
def findWordsWithPrefixHelper : TrieNode → List Char → List (List Char) → List (List Char)
  | mk cs e, currentWord, results =>
    helperChildren cs currentWord (if e then results ++ [currentWord] else results)
/-- The loop `for (auto& child : node->children)` of the helper. -/
def helperChildren : List (Char × TrieNode) → List Char → List (List Char) → List (List Char)
  | [], _, results => results
  | (ch, child) :: rest, currentWord, results =>
    helperChildren rest currentWord (findWordsWithPrefixHelper child (currentWord ++ [ch]) results)
end

/-- The loop of `Trie::findWordsWithPrefix` started at `node` on the remaining
characters `rest` of the prefix `pre`, followed by the call of the helper with
the whole prefix and the empty vector. -/
def findWordsWithPrefix : TrieNode → List Char → List Char → List (List Char)
  | node, [], pre => findWordsWithPrefixHelper node pre []
  | mk cs _, ch :: rest, pre =>
    match childAt cs ch with
    | none => []
    | some child => findWordsWithPrefix child rest pre

mutual
/-- The keys of every map in the subtree are pairwise distinct (what
`unordered_map` guarantees). -/
def uniqueKeys : TrieNode → Bool
  | mk cs _ => decide (cs.map Prod.fst).Nodup && uniqueKeysList cs
/-- Every child of the entries has unique keys. -/
def uniqueKeysList : List (Char × TrieNode) → Bool
  | [] => true
  | (_, n) :: rest => uniqueKeys n && uniqueKeysList rest
end

mutual
/-- The second trie has, at every node, the same flag and the same map as the
first one (same keys, children related again), possibly enumerated in another
order. -/
def reorderOf : TrieNode → TrieNode → Bool
  | mk cs e, mk cs2 e2 =>
    (e == e2) && cs2.all (fun p => (childAt cs p.1).isSome) && reorderOfList cs cs2
/-- Every entry of the first list has a related entry under its key in the
second list. -/
def reorderOfList : List (Char × TrieNode) → List (Char × TrieNode) → Bool
  | [], _ => true
  | (ch, n) :: rest, cs2 =>
    (match childAt cs2 ch with
      | none => false
      | some n2 => reorderOf n n2) && reorderOfList rest cs2
end

end TrieNode

/-- The class `Trie`: the pointer `root`. -/
structure Trie where
  root : TrieNode

namespace Trie

/-- The constructor `Trie()`: `root = new TrieNode()`. -/
def new : Trie := ⟨TrieNode.new⟩

/-- The method `Trie::insert`. -/
def insert (t : Trie) (word : List Char) : Trie := ⟨t.root.insert word⟩

/-- The method `Trie::search`. -/
def search (t : Trie) (word : List Char) : Bool := t.root.search word

/-- The method `Trie::startsWith`. -/
def startsWith (t : Trie) (pre : List Char) : Bool := t.root.startsWith pre

/-- The method `Trie::findWordsWithPrefix`. -/
def findWordsWithPrefix (t : Trie) (pre : List Char) : List (List Char) :=
  t.root.findWordsWithPrefix pre pre

/-- A finite sequence of `insert` calls, first word first. -/
def insertAll (t : Trie) (words : List (List Char)) : Trie :=
  words.foldl insert t

end Trie

/-! ## The queries as state transformers

The three queries are methods of a mutable object.  Here they are run on the
state: the result carries the subtree after the call.  The only statement of
the queries that can write to a node is `node->children[ch]`, because
`operator[]` of `unordered_map` adds an entry (holding a null pointer) when
the key is absent; the test `children.count(ch)` is kept apart from it. -/

namespace TrieNode

/-- The call `children.count(ch)`: the number of entries stored under `ch`. -/
def count : List (Char × TrieNode) → Char → Nat
  | [], _ => 0
  | (k, _) :: rest, ch => (if k = ch then 1 else 0) + count rest ch

/-- The outcome of a query run on a subtree: the returned value with the
subtree after the call, or the event that `children[ch]` found no entry for
`ch` and added one holding a null pointer. -/
inductive Run (α : Type) where
  | done (result : α) (after : TrieNode)
  | nullEntry

/-- The method `Trie::search` from `node` on, as a state transformer. -/
def searchRun : TrieNode → List Char → Run Bool
  | mk cs e, [] => Run.done e (mk cs e)
  | mk cs e, ch :: rest =>
    if count cs ch = 0 then Run.done false (mk cs e)
    else
      match childAt cs ch with
      | none => Run.nullEntry
      | some child =>
        match searchRun child rest with
        | Run.done r child1 => Run.done r (mk (setChild cs ch child1) e)
        | Run.nullEntry => Run.nullEntry

/-- The method `Trie::startsWith` from `node` on, as a state transformer. -/
def startsWithRun : TrieNode → List Char → Run Bool
  | node, [] => Run.done true node
  | mk cs e, ch :: rest =>
    if count cs ch = 0 then Run.done false (mk cs e)
    else
      match childAt cs ch with
      | none => Run.nullEntry
      | some child =>
        match startsWithRun child rest with
        | Run.done r child1 => Run.done r (mk (setChild cs ch child1) e)
        | Run.nullEntry => Run.nullEntry

/-- The method `Trie::findWordsWithPrefix` from `node` on, as a state
transformer.  The helper reads `isEndOfWord`, iterates over `children` and
writes to the vector `results` only, so it leaves `node` as it is. -/
def findWordsWithPrefixRun : TrieNode → List Char → List Char → Run (List (List Char))
  | node, [], pre => Run.done (findWordsWithPrefixHelper node pre []) node
  | mk cs e, ch :: rest, pre =>
    if count cs ch = 0 then Run.done [] (mk cs e)
    else
      match childAt cs ch with
      | none => Run.nullEntry
      | some child =>
        match findWordsWithPrefixRun child rest pre with
        | Run.done r child1 => Run.done r (mk (setChild cs ch child1) e)
        | Run.nullEntry => Run.nullEntry

/-! ## Measures of the tree -/

mutual
/-- The length of the longest path from `node` downwards. -/
def height : TrieNode → Nat
  | mk cs _ => heightList cs
/-- One more than the greatest height of a child, `0` without children. -/
def heightList : List (Char × TrieNode) → Nat
  | [] => 0
  | (_, n) :: rest => max (height n + 1) (heightList rest)
end

mutual
/-- The number of nodes of the subtree, `node` included. -/
def size : TrieNode → Nat
  | mk cs _ => 1 + sizeList cs
/-- The number of nodes in the subtrees of the entries. -/
def sizeList : List (Char × TrieNode) → Nat
  | [] => 0
  | (_, n) :: rest => size n + sizeList rest
end

/-- The number of leading iterations of the loop of `Trie::insert` in which
`children.count(ch)` succeeds, so that no node is created. -/
def matchLen : TrieNode → List Char → Nat
  | _, [] => 0
  | mk cs _, ch :: rest =>
    match childAt cs ch with
    | none => 0
    | some child => matchLen child rest + 1

mutual
/-- The helper with a bound `fuel` on the depth of the nested calls: `none` when
a call would be nested deeper than `fuel`. -/
def findWordsWithPrefixHelperFuel :
    Nat → TrieNode → List Char → List (List Char) → Option (List (List Char))
  | 0, _, _, _ => none
  | fuel + 1, mk cs e, currentWord, results =>
    helperChildrenFuel fuel cs currentWord (if e then results ++ [currentWord] else results)
/-- The loop over the children of the bounded helper. -/
def helperChildrenFuel :
    Nat → List (Char × TrieNode) → List Char → List (List Char) → Option (List (List Char))
  | _, [], _, results => some results
  | fuel, (ch, child) :: rest, currentWord, results =>
    match findWordsWithPrefixHelperFuel fuel child (currentWord ++ [ch]) results with
    | none => none
    | some r => helperChildrenFuel fuel rest currentWord r
end

mutual
/-- Some node of the subtree, `node` included, has `isEndOfWord = true`. -/
def hasWord : TrieNode → Bool
  | mk cs e => e || hasWordList cs
/-- Some entry has a subtree with a flagged node. -/
def hasWordList : List (Char × TrieNode) → Bool
  | [] => false
  | (_, n) :: rest => hasWord n || hasWordList rest
end

mutual
/-- Every node strictly below `node` has a flagged node in its subtree. -/
def noDeadBranch : TrieNode → Bool
  | mk cs _ => noDeadBranchList cs
/-- Every entry has a flagged node in its subtree, and so on below it. -/
def noDeadBranchList : List (Char × TrieNode) → Bool
  | [] => true
  | (_, n) :: rest => hasWord n && noDeadBranch n && noDeadBranchList rest
end

end TrieNode

/-! ## The association list -/

namespace TrieNode

/-- Induction over the tree: a property holds of a node when it holds of every
child stored in its map. -/
theorem induct {P : TrieNode → Prop}
    (step : ∀ cs e, (∀ p ∈ cs, P p.2) → P (mk cs e)) : ∀ t, P t :=
  @TrieNode.rec P (fun cs => ∀ p ∈ cs, P p.2) (fun p => P p.2)
    (fun cs e ih => step cs e ih)
    (fun p hp => by cases hp)
    (fun hd tl ihd itl p hp => by
      rcases List.mem_cons.1 hp with h | h
      · subst h; exact ihd
      · exact itl p h)
    (fun _ _ ih => ih)

theorem childAt_setChild (cs : List (Char × TrieNode)) (ch c : Char) (n : TrieNode) :
    childAt (setChild cs ch n) c = if ch = c then some n else childAt cs c := by
  induction cs with
  | nil => simp [setChild, childAt]
  | cons hd tl ih =>
    obtain ⟨k, m⟩ := hd
    by_cases hk : k = ch
    · subst hk
      by_cases hc : k = c <;> simp [setChild, childAt, hc]
    · by_cases hc : ch = c
      · subst hc
        simp [setChild, childAt, hk, ih]
      · simp [setChild, childAt, hk, ih, hc]

theorem setChild_setChild (cs : List (Char × TrieNode)) (ch : Char) (n m : TrieNode) :
    setChild (setChild cs ch n) ch m = setChild cs ch m := by
  induction cs with
  | nil => simp [setChild]
  | cons hd tl ih =>
    obtain ⟨k, x⟩ := hd
    by_cases hk : k = ch <;> simp [setChild, hk, ih]

theorem childAt_eq_none (cs : List (Char × TrieNode)) (c : Char) :
    childAt cs c = none ↔ c ∉ cs.map Prod.fst := by
  induction cs with
  | nil => simp [childAt]
  | cons hd tl ih =>
    obtain ⟨k, x⟩ := hd
    by_cases hk : k = c
    · simp [childAt, hk]
    · have hk2 : ¬ c = k := fun h => hk h.symm
      simp [childAt, hk, hk2, ih]

theorem mem_of_childAt {cs : List (Char × TrieNode)} {c : Char} {n : TrieNode}
    (h : childAt cs c = some n) : (c, n) ∈ cs := by
  induction cs with
  | nil => simp [childAt] at h
  | cons hd tl ih =>
    obtain ⟨k, x⟩ := hd
    by_cases hk : k = c
    · simp [childAt, hk] at h
      simp [hk, h]
    · simp [childAt, hk] at h
      exact List.mem_cons_of_mem _ (ih h)

theorem childAt_of_mem {cs : List (Char × TrieNode)} {c : Char} {n : TrieNode}
    (hnd : (cs.map Prod.fst).Nodup) (h : (c, n) ∈ cs) : childAt cs c = some n := by
  induction cs with
  | nil => cases h
  | cons hd tl ih =>
    obtain ⟨k, x⟩ := hd
    rw [List.map_cons, List.nodup_cons] at hnd
    rcases List.mem_cons.1 h with h1 | h1
    · cases h1
      simp [childAt]
    · have hk : ¬ k = c := by
        intro hk
        subst hk
        exact hnd.1 (List.mem_map.2 ⟨(k, n), h1, rfl⟩)
      simp [childAt, hk, ih hnd.2 h1]

end TrieNode

/-! ## Insertion against the two boolean queries -/

namespace TrieNode

theorem search_new (q : List Char) : search TrieNode.new q = false := by
  cases q <;> simp [search, TrieNode.new, childAt]

theorem startsWith_new (q : List Char) : startsWith TrieNode.new q = decide (q = []) := by
  cases q <;> simp [startsWith, TrieNode.new, childAt]

/-- After `insert w`, a word is found iff it is `w` or was found before. -/
theorem search_insert (t : TrieNode) (w q : List Char) :
    search (insert t w) q = (decide (q = w) || search t q) := by
  induction w generalizing t q with
  | nil =>
    obtain ⟨cs, e⟩ := t
    cases q <;> simp [insert, search]
  | cons ch rest ih =>
    obtain ⟨cs, e⟩ := t
    cases q with
    | nil => cases h : childAt cs ch <;> simp [insert, search, h]
    | cons c r =>
      cases h : childAt cs ch with
      | none =>
        by_cases hc : ch = c
        · subst hc
          simp [insert, search, h, childAt_setChild, ih, search_new]
        · have hc2 : ¬ c = ch := fun x => hc x.symm
          simp [insert, search, h, childAt_setChild, hc, hc2]
      | some child =>
        by_cases hc : ch = c
        · subst hc
          simp [insert, search, h, childAt_setChild, ih]
        · have hc2 : ¬ c = ch := fun x => hc x.symm
          simp [insert, search, h, childAt_setChild, hc, hc2]

/-- After `insert w`, a path exists iff it is a prefix of `w` or existed before. -/
theorem startsWith_insert (t : TrieNode) (w q : List Char) :
    startsWith (insert t w) q = (decide (q <+: w) || startsWith t q) := by
  induction w generalizing t q with
  | nil =>
    obtain ⟨cs, e⟩ := t
    cases q <;> simp [insert, startsWith]
  | cons ch rest ih =>
    obtain ⟨cs, e⟩ := t
    cases q with
    | nil => simp [startsWith]
    | cons c r =>
      cases h : childAt cs ch with
      | none =>
        by_cases hc : ch = c
        · subst hc
          simp [insert, startsWith, h, childAt_setChild, ih, startsWith_new, List.cons_prefix_cons]
          intro hr
          subst hr
          exact List.nil_prefix
        · have hc2 : ¬ c = ch := fun x => hc x.symm
          simp [insert, startsWith, h, childAt_setChild, hc, hc2, List.cons_prefix_cons]
      | some child =>
        by_cases hc : ch = c
        · subst hc
          simp [insert, startsWith, h, childAt_setChild, ih, List.cons_prefix_cons]
        · have hc2 : ¬ c = ch := fun x => hc x.symm
          simp [insert, startsWith, h, childAt_setChild, hc, hc2, List.cons_prefix_cons]

end TrieNode

namespace Trie

theorem search_insertAll (t : Trie) (ws : List (List Char)) (q : List Char) :
    (t.insertAll ws).search q = (decide (q ∈ ws) || t.search q) := by
  induction ws generalizing t with
  | nil => simp [insertAll]
  | cons w rest ih =>
    have h := ih (t.insert w)
    simp only [insertAll, List.foldl_cons] at h ⊢
    rw [h]
    simp only [search, insert, TrieNode.search_insert]
    by_cases hq : q = w <;> simp [hq]

theorem startsWith_insertAll (t : Trie) (ws : List (List Char)) (q : List Char) :
    (t.insertAll ws).startsWith q = (decide (∃ w ∈ ws, q <+: w) || t.startsWith q) := by
  induction ws generalizing t with
  | nil => simp [insertAll]
  | cons w rest ih =>
    have h := ih (t.insert w)
    simp only [insertAll, List.foldl_cons] at h ⊢
    rw [h]
    simp only [startsWith, insert, TrieNode.startsWith_insert]
    by_cases hq : q <+: w <;> simp [hq]

/-- On a trie built from the fresh one, a word is found iff it was inserted. -/
theorem search_build (ws : List (List Char)) (q : List Char) :
    (Trie.new.insertAll ws).search q = decide (q ∈ ws) := by
  rw [search_insertAll]
  simp [search, Trie.new, TrieNode.search_new]

/-- On a trie built from the fresh one, a path exists iff it is empty or a
prefix of an inserted word. -/
theorem startsWith_build (ws : List (List Char)) (q : List Char) :
    (Trie.new.insertAll ws).startsWith q = (decide (∃ w ∈ ws, q <+: w) || decide (q = [])) := by
  rw [startsWith_insertAll]
  simp [startsWith, Trie.new, TrieNode.startsWith_new]

end Trie

/-! ## Unique keys -/

namespace TrieNode

theorem uniqueKeysList_iff (cs : List (Char × TrieNode)) :
    uniqueKeysList cs = true ↔ ∀ p ∈ cs, uniqueKeys p.2 = true := by
  induction cs with
  | nil => simp [uniqueKeysList]
  | cons hd tl ih =>
    obtain ⟨k, n⟩ := hd
    simp [uniqueKeysList, ih]

theorem uniqueKeys_iff (cs : List (Char × TrieNode)) (e : Bool) :
    uniqueKeys (mk cs e) = true ↔
      (cs.map Prod.fst).Nodup ∧ ∀ p ∈ cs, uniqueKeys p.2 = true := by
  simp [uniqueKeys, uniqueKeysList_iff]

theorem uniqueKeys_new : uniqueKeys TrieNode.new = true := by
  simp [TrieNode.new, uniqueKeys, uniqueKeysList]

theorem keys_setChild (cs : List (Char × TrieNode)) (ch : Char) (n : TrieNode) :
    (setChild cs ch n).map Prod.fst =
      if ch ∈ cs.map Prod.fst then cs.map Prod.fst else cs.map Prod.fst ++ [ch] := by
  induction cs with
  | nil => simp [setChild]
  | cons hd tl ih =>
    obtain ⟨k, m⟩ := hd
    by_cases hk : k = ch
    · subst hk
      simp [setChild]
    · have hk2 : ¬ ch = k := fun x => hk x.symm
      simp only [setChild, hk, if_false, List.map_cons, ih, List.mem_cons, hk2, false_or]
      split <;> simp

theorem mem_setChild {cs : List (Char × TrieNode)} {ch : Char} {n : TrieNode}
    {p : Char × TrieNode} (h : p ∈ setChild cs ch n) : p = (ch, n) ∨ p ∈ cs := by
  induction cs with
  | nil => simpa [setChild] using h
  | cons hd tl ih =>
    obtain ⟨k, m⟩ := hd
    by_cases hk : k = ch
    · simp only [setChild, hk, if_true, List.mem_cons] at h
      rcases h with h | h
      · exact Or.inl h
      · exact Or.inr (List.mem_cons_of_mem _ h)
    · simp only [setChild, hk, if_false, List.mem_cons] at h
      rcases h with h | h
      · exact Or.inr (by simp [h])
      · rcases ih h with h2 | h2
        · exact Or.inl h2
        · exact Or.inr (List.mem_cons_of_mem _ h2)

theorem nodup_keys_setChild {cs : List (Char × TrieNode)} (ch : Char) (n : TrieNode)
    (h : (cs.map Prod.fst).Nodup) : ((setChild cs ch n).map Prod.fst).Nodup := by
  rw [keys_setChild]
  split
  · exact h
  · rename_i hmem
    rw [List.nodup_append]
    refine ⟨h, List.nodup_singleton _, ?_⟩
    intro a ha hb
    rw [List.mem_singleton] at hb
    subst hb
    exact hmem ha

/-- The method `insert` keeps the keys of every map unique. -/
theorem uniqueKeys_insert (t : TrieNode) (w : List Char) (h : uniqueKeys t = true) :
    uniqueKeys (insert t w) = true := by
  induction w generalizing t with
  | nil =>
    obtain ⟨cs, e⟩ := t
    rw [uniqueKeys_iff] at h
    simp only [insert]
    exact (uniqueKeys_iff cs true).2 h
  | cons ch rest ih =>
    obtain ⟨cs, e⟩ := t
    rw [uniqueKeys_iff] at h
    cases hc : childAt cs ch with
    | none =>
      simp only [insert, hc]
      rw [uniqueKeys_iff]
      refine ⟨nodup_keys_setChild ch _ h.1, ?_⟩
      intro p hp
      rcases mem_setChild hp with hp | hp
      · subst hp
        exact ih _ uniqueKeys_new
      · exact h.2 p hp
    | some child =>
      simp only [insert, hc]
      rw [uniqueKeys_iff]
      refine ⟨nodup_keys_setChild ch _ h.1, ?_⟩
      intro p hp
      rcases mem_setChild hp with hp | hp
      · subst hp
        exact ih _ (h.2 _ (mem_of_childAt hc))
      · exact h.2 p hp

end TrieNode

namespace Trie

theorem uniqueKeys_insertAll (t : Trie) (ws : List (List Char))
    (h : t.root.uniqueKeys = true) : (t.insertAll ws).root.uniqueKeys = true := by
  induction ws generalizing t with
  | nil => simpa [insertAll] using h
  | cons w rest ih =>
    have h2 := ih (t.insert w) (TrieNode.uniqueKeys_insert t.root w h)
    simpa [insertAll] using h2

theorem uniqueKeys_build (ws : List (List Char)) :
    (Trie.new.insertAll ws).root.uniqueKeys = true :=
  uniqueKeys_insertAll _ ws TrieNode.uniqueKeys_new

end Trie

/-! ## The enumeration -/

namespace TrieNode

theorem search_cons_eq_true (cs : List (Char × TrieNode)) (e : Bool) (c : Char)
    (r : List Char) :
    search (mk cs e) (c :: r) = true ↔ ∃ child, childAt cs c = some child ∧ search child r = true := by
  cases h : childAt cs c <;> simp [search, h]

theorem helperChildren_mem (cs : List (Char × TrieNode))
    (hcs : ∀ p ∈ cs, ∀ (cur : List Char) (results : List (List Char)) (w : List Char),
      w ∈ findWordsWithPrefixHelper p.2 cur results ↔
        w ∈ results ∨ ∃ s, w = cur ++ s ∧ search p.2 s = true)
    (cur : List Char) (results : List (List Char)) (w : List Char) :
    w ∈ helperChildren cs cur results ↔
      w ∈ results ∨ ∃ p ∈ cs, ∃ s, w = cur ++ p.1 :: s ∧ search p.2 s = true := by
  induction cs generalizing results with
  | nil => simp [helperChildren]
  | cons hd tl ih =>
    obtain ⟨ch, child⟩ := hd
    have htl : ∀ p ∈ tl, ∀ (cur : List Char) (results : List (List Char)) (w : List Char),
        w ∈ findWordsWithPrefixHelper p.2 cur results ↔
          w ∈ results ∨ ∃ s, w = cur ++ s ∧ search p.2 s = true :=
      fun p hp => hcs p (List.mem_cons_of_mem _ hp)
    have hhd := hcs (ch, child) (List.mem_cons_self _ _)
    simp only [helperChildren]
    rw [ih htl, hhd]
    constructor
    · rintro ((h | ⟨s, hs, hsearch⟩) | ⟨p, hp, s, hs, hsearch⟩)
      · exact Or.inl h
      · refine Or.inr ⟨(ch, child), List.mem_cons_self _ _, s, ?_, hsearch⟩
        simpa using hs
      · exact Or.inr ⟨p, List.mem_cons_of_mem _ hp, s, hs, hsearch⟩
    · rintro (h | ⟨p, hp, s, hs, hsearch⟩)
      · exact Or.inl (Or.inl h)
      · rcases List.mem_cons.1 hp with hp | hp
        · subst hp
          refine Or.inl (Or.inr ⟨s, ?_, hsearch⟩)
          simpa using hs
        · exact Or.inr ⟨p, hp, s, hs, hsearch⟩

/-- The helper appends to `results` exactly the words `currentWord ++ s` for the
paths `s` that `search` finds from `node`. -/
theorem findWordsWithPrefixHelper_mem (t : TrieNode) :
    uniqueKeys t = true →
    ∀ (cur : List Char) (results : List (List Char)) (w : List Char),
      w ∈ findWordsWithPrefixHelper t cur results ↔
        w ∈ results ∨ ∃ s, w = cur ++ s ∧ search t s = true := by
  induction t using TrieNode.induct with
  | step cs e ih => ?_
  intro hu cur results w
  rw [uniqueKeys_iff] at hu
  have hcs := helperChildren_mem cs (fun p hp => ih p hp (hu.2 p hp)) cur
  simp only [findWordsWithPrefixHelper]
  rw [hcs]
  constructor
  · rintro (h | ⟨p, hp, s, hs, hsearch⟩)
    · cases e with
      | false => exact Or.inl (by simpa using h)
      | true =>
        simp only [if_true, List.mem_append, List.mem_singleton] at h
        rcases h with h | h
        · exact Or.inl h
        · exact Or.inr ⟨[], by simp [h], by simp [search]⟩
    · refine Or.inr ⟨p.1 :: s, hs, ?_⟩
      rw [search_cons_eq_true]
      exact ⟨p.2, childAt_of_mem hu.1 hp, hsearch⟩
  · rintro (h | ⟨s, hs, hsearch⟩)
    · refine Or.inl ?_
      cases e <;> simp [h]
    · cases s with
      | nil =>
        simp only [search] at hsearch
        subst hsearch
        exact Or.inl (by simp [hs])
      | cons c r =>
        rw [search_cons_eq_true] at hsearch
        obtain ⟨child, hchild, hsr⟩ := hsearch
        exact Or.inr ⟨(c, child), mem_of_childAt hchild, r, hs, hsr⟩

/-- The walk of `findWordsWithPrefix` over the remaining characters `rest`,
when `pre = done ++ rest` and `node` is reached along `done`. -/
theorem findWordsWithPrefix_mem (t : TrieNode) (hu : uniqueKeys t = true)
    (rest pre w : List Char) :
    w ∈ findWordsWithPrefix t rest pre ↔ ∃ s, w = pre ++ s ∧ search t (rest ++ s) = true := by
  induction rest generalizing t with
  | nil =>
    simp only [findWordsWithPrefix, List.nil_append]
    rw [findWordsWithPrefixHelper_mem t hu]
    simp
  | cons c r ih =>
    obtain ⟨cs, e⟩ := t
    rw [uniqueKeys_iff] at hu
    cases h : childAt cs c with
    | none => simp [findWordsWithPrefix, search, h]
    | some child =>
      simp only [findWordsWithPrefix, h, List.cons_append, search]
      exact ih child (hu.2 _ (mem_of_childAt h))

end TrieNode

namespace Trie

/-- The result of `findWordsWithPrefix(pre)`, as a set: the words that begin
with `pre` and that `search` finds. -/
theorem mem_findWordsWithPrefix (t : Trie) (hu : t.root.uniqueKeys = true)
    (pre w : List Char) :
    w ∈ t.findWordsWithPrefix pre ↔ pre <+: w ∧ t.search w = true := by
  simp only [findWordsWithPrefix, search]
  rw [TrieNode.findWordsWithPrefix_mem t.root hu]
  constructor
  · rintro ⟨s, hs, hsearch⟩
    subst hs
    exact ⟨List.prefix_append _ _, hsearch⟩
  · rintro ⟨⟨s, hs⟩, hsearch⟩
    subst hs
    exact ⟨s, rfl, hsearch⟩

end Trie

/-! ## Enumeration orders -/

namespace TrieNode

theorem reorderOfList_iff (cs cs2 : List (Char × TrieNode)) :
    reorderOfList cs cs2 = true ↔
      ∀ p ∈ cs, ∃ n2, childAt cs2 p.1 = some n2 ∧ reorderOf p.2 n2 = true := by
  induction cs with
  | nil => simp [reorderOfList]
  | cons hd tl ih =>
    obtain ⟨k, n⟩ := hd
    cases h : childAt cs2 k <;> simp [reorderOfList, ih, h]

theorem reorderOf_iff (cs cs2 : List (Char × TrieNode)) (e e2 : Bool) :
    reorderOf (mk cs e) (mk cs2 e2) = true ↔
      e = e2 ∧ (∀ p ∈ cs2, (childAt cs p.1).isSome = true) ∧
        ∀ p ∈ cs, ∃ n2, childAt cs2 p.1 = some n2 ∧ reorderOf p.2 n2 = true := by
  simp [reorderOf, reorderOfList_iff, and_assoc]

/-- A trie with unique keys is an enumeration order of itself. -/
theorem reorderOf_refl (t : TrieNode) : uniqueKeys t = true → reorderOf t t = true := by
  induction t using TrieNode.induct with
  | step cs e ih => ?_
  intro hu
  rw [uniqueKeys_iff] at hu
  rw [reorderOf_iff]
  refine ⟨rfl, ?_, ?_⟩
  · intro p hp
    rw [childAt_of_mem hu.1 hp]
    rfl
  · intro p hp
    exact ⟨p.2, childAt_of_mem hu.1 hp, ih p hp (hu.2 p hp)⟩

/-- The method `search` does not see the enumeration order. -/
theorem search_reorderOf (t t2 : TrieNode) (h : reorderOf t t2 = true) (q : List Char) :
    search t2 q = search t q := by
  induction q generalizing t t2 with
  | nil =>
    obtain ⟨cs, e⟩ := t
    obtain ⟨cs2, e2⟩ := t2
    rw [reorderOf_iff] at h
    simp [search, h.1]
  | cons c r ih =>
    obtain ⟨cs, e⟩ := t
    obtain ⟨cs2, e2⟩ := t2
    rw [reorderOf_iff] at h
    cases hc : childAt cs c with
    | none =>
      cases hc2 : childAt cs2 c with
      | none => simp [search, hc, hc2]
      | some n2 =>
        have := h.2.1 _ (mem_of_childAt hc2)
        simp [hc] at this
    | some child =>
      obtain ⟨n2, hn2, hrel⟩ := h.2.2 _ (mem_of_childAt hc)
      simp only [search, hc, hn2]
      exact ih child n2 hrel

end TrieNode

/-! ## The node reached along a path -/

namespace TrieNode

theorem search_iff_nodeAt (t : TrieNode) (w : List Char) :
    search t w = true ↔ ∃ n, nodeAt t w = some n ∧ n.isEndOfWord = true := by
  induction w generalizing t with
  | nil =>
    obtain ⟨cs, e⟩ := t
    simp [search, nodeAt, isEndOfWord]
  | cons c r ih =>
    obtain ⟨cs, e⟩ := t
    cases h : childAt cs c with
    | none => simp [search, nodeAt, h]
    | some child => simpa [search, nodeAt, h] using ih child

theorem queries_of_startsWith_false (t : TrieNode) (rest pre : List Char)
    (h : startsWith t rest = false) :
    findWordsWithPrefix t rest pre = [] ∧ search t rest = false := by
  induction rest generalizing t with
  | nil => simp [startsWith] at h
  | cons c r ih =>
    obtain ⟨cs, e⟩ := t
    cases hc : childAt cs c with
    | none => simp [findWordsWithPrefix, search, hc]
    | some child =>
      simp only [startsWith, hc] at h
      simpa [findWordsWithPrefix, search, hc] using ih child h

theorem insert_insert (t : TrieNode) (w : List Char) :
    insert (insert t w) w = insert t w := by
  induction w generalizing t with
  | nil =>
    obtain ⟨cs, e⟩ := t
    simp [insert]
  | cons c r ih =>
    obtain ⟨cs, e⟩ := t
    cases hc : childAt cs c <;>
      simp [insert, hc, childAt_setChild, setChild_setChild, ih]

end TrieNode

/-! ## The claims -/

/-- Claim C1: after any finite sequence of `insert` calls on a fresh `Trie`,
`search(W)` returns true iff `W` is one of the inserted words; equivalently the
node reached from the root along `W` exists and has `isEndOfWord = true` iff `W`
was inserted. -/
theorem C1_search_iff_inserted (ws : List (List Char)) (W : List Char) :
    ((Trie.new.insertAll ws).search W = true ↔ W ∈ ws) ∧
    ((∃ n, TrieNode.nodeAt (Trie.new.insertAll ws).root W = some n ∧ n.isEndOfWord = true) ↔
      W ∈ ws) := by
  have h : (Trie.new.insertAll ws).search W = true ↔ W ∈ ws := by
    rw [Trie.search_build]
    simp
  refine ⟨h, ?_⟩
  rw [← h, Trie.search, TrieNode.search_iff_nodeAt]

/-- Claim C2: for every trie state and every word `W`, the empty word included,
`search(W)` returns true immediately after `insert(W)`. -/
theorem C2_search_after_insert (t : Trie) (W : List Char) :
    (t.insert W).search W = true := by
  simp [Trie.search, Trie.insert, TrieNode.search_insert]

/-- Claim C3: for a trie built from a fresh `Trie` by a finite sequence of
inserts, in any enumeration order of the children maps, the elements of
`findWordsWithPrefix(P)` are exactly the inserted words that begin with `P`. -/
theorem C3_findWordsWithPrefix_set (ws : List (List Char)) (t : Trie)
    (hu : t.root.uniqueKeys = true)
    (hr : TrieNode.reorderOf (Trie.new.insertAll ws).root t.root = true)
    (P w : List Char) :
    w ∈ t.findWordsWithPrefix P ↔ (w ∈ ws ∧ P <+: w) := by
  rw [Trie.mem_findWordsWithPrefix t hu, Trie.search,
    TrieNode.search_reorderOf _ _ hr w]
  have h := Trie.search_build ws w
  rw [Trie.search] at h
  rw [h]
  simp [and_comm]

theorem C3_findWordsWithPrefix_set_witness :
    (Trie.new.insertAll [['w','2'], ['d','o'], ['d','a']]).root.uniqueKeys = true ∧
    TrieNode.reorderOf (Trie.new.insertAll [['d','a'], ['d','o'], ['w','2']]).root
      (Trie.new.insertAll [['w','2'], ['d','o'], ['d','a']]).root = true ∧
    (['d','o'] ∈ (Trie.new.insertAll [['w','2'], ['d','o'], ['d','a']]).findWordsWithPrefix ['d'] ↔
      (['d','o'] ∈ [['d','a'], ['d','o'], ['w','2']] ∧ ['d'] <+: ['d','o'])) :=
  ⟨by decide, by decide,
    C3_findWordsWithPrefix_set [['d','a'], ['d','o'], ['w','2']]
      (Trie.new.insertAll [['w','2'], ['d','o'], ['d','a']]) (by decide) (by decide)
      ['d'] ['d','o']⟩

/-- Claim C4, evaluated on the code: on a fresh `Trie` with no insert,
`startsWith("")` returns true although no inserted word begins with the empty
prefix. -/
theorem C4_startsWith_fresh_trie :
    (Trie.new.insertAll []).startsWith [] = true ∧
    ¬ ∃ W ∈ ([] : List (List Char)), ([] : List Char) <+: W := by
  constructor
  · rfl
  · simp

/-- Claim C5: on a trie built from a fresh `Trie`, a strict prefix `W` of an
inserted word that was not itself inserted has `search(W) = false` and
`startsWith(W) = true`. -/
theorem C5_strict_prefix (ws : List (List Char)) (W : List Char)
    (hn : W ∉ ws) (hp : ∃ V ∈ ws, W <+: V ∧ W ≠ V) :
    (Trie.new.insertAll ws).search W = false ∧
    (Trie.new.insertAll ws).startsWith W = true := by
  rw [Trie.search_build, Trie.startsWith_build]
  obtain ⟨V, hV, hWV, _⟩ := hp
  refine ⟨by simp [hn], ?_⟩
  have : ∃ w ∈ ws, W <+: w := ⟨V, hV, hWV⟩
  simp [this]

theorem C5_strict_prefix_witness :
    ['d'] ∉ [['d','a','t','a'], ['d','o']] ∧
    (∃ V ∈ [['d','a','t','a'], ['d','o']], ['d'] <+: V ∧ ['d'] ≠ V) ∧
    (Trie.new.insertAll [['d','a','t','a'], ['d','o']]).search ['d'] = false ∧
    (Trie.new.insertAll [['d','a','t','a'], ['d','o']]).startsWith ['d'] = true :=
  ⟨by decide, ⟨['d','o'], by decide, by decide, by decide⟩,
    C5_strict_prefix [['d','a','t','a'], ['d','o']] ['d'] (by decide)
      ⟨['d','o'], by decide, by decide, by decide⟩⟩

/-- Claim C6: `insert` is idempotent: the trie after `insert(W); insert(W)` is
the trie after one `insert(W)`, so `search`, `startsWith` and
`findWordsWithPrefix` answer every query alike on both. -/
theorem C6_insert_idempotent (t : Trie) (W : List Char) :
    (t.insert W).insert W = t.insert W ∧
    ∀ q : List Char,
      ((t.insert W).insert W).search q = (t.insert W).search q ∧
      ((t.insert W).insert W).startsWith q = (t.insert W).startsWith q ∧
      ((t.insert W).insert W).findWordsWithPrefix q = (t.insert W).findWordsWithPrefix q := by
  have h : (t.insert W).insert W = t.insert W := by
    simp [Trie.insert, TrieNode.insert_insert]
  refine ⟨h, fun q => ?_⟩
  rw [h]
  exact ⟨rfl, rfl, rfl⟩

/-- Claim C7: for a trie built from a fresh `Trie` by a finite sequence of
inserts, in any enumeration order of the children maps,
`findWordsWithPrefix("")` has exactly the inserted words as elements, and is
the empty list when nothing was inserted. -/
theorem C7_empty_prefix_all_words (ws : List (List Char)) (t : Trie)
    (hu : t.root.uniqueKeys = true)
    (hr : TrieNode.reorderOf (Trie.new.insertAll ws).root t.root = true) :
    (∀ w, w ∈ t.findWordsWithPrefix [] ↔ w ∈ ws) ∧
    (ws = [] → t.findWordsWithPrefix [] = []) := by
  have h : ∀ w, w ∈ t.findWordsWithPrefix [] ↔ w ∈ ws := by
    intro w
    rw [Trie.mem_findWordsWithPrefix t hu, Trie.search,
      TrieNode.search_reorderOf _ _ hr w]
    have h := Trie.search_build ws w
    rw [Trie.search] at h
    rw [h]
    simp
  refine ⟨h, fun hws => ?_⟩
  subst hws
  exact List.eq_nil_iff_forall_not_mem.2 (fun w hw => by simpa using (h w).1 hw)

theorem C7_empty_prefix_all_words_witness :
    (Trie.new.insertAll [['d','o'], ['a'], ['d']]).root.uniqueKeys = true ∧
    TrieNode.reorderOf (Trie.new.insertAll [['a'], ['d'], ['d','o']]).root
      (Trie.new.insertAll [['d','o'], ['a'], ['d']]).root = true ∧
    (∀ w, w ∈ (Trie.new.insertAll [['d','o'], ['a'], ['d']]).findWordsWithPrefix [] ↔
      w ∈ [['a'], ['d'], ['d','o']]) ∧
    ([['a'], ['d'], ['d','o']] = [] →
      (Trie.new.insertAll [['d','o'], ['a'], ['d']]).findWordsWithPrefix [] = []) :=
  ⟨by decide, by decide,
    C7_empty_prefix_all_words [['a'], ['d'], ['d','o']]
      (Trie.new.insertAll [['d','o'], ['a'], ['d']]) (by decide) (by decide)⟩

/-- Claim C8: on a fresh trie after inserting "data", "do" and "word2vec" in
any order, `search("do")` is true, `search("d")` is false, `startsWith("d")` is
true, `findWordsWithPrefix("do")` has the element set {"do"} and
`findWordsWithPrefix("d")` has the element set {"data", "do"}. -/
theorem C8_scenario (ws : List (List Char))
    (hperm : ws.Perm [['d','a','t','a'], ['d','o'], ['w','o','r','d','2','v','e','c']]) :
    (Trie.new.insertAll ws).search ['d','o'] = true ∧
    (Trie.new.insertAll ws).search ['d'] = false ∧
    (Trie.new.insertAll ws).startsWith ['d'] = true ∧
    (∀ w, w ∈ (Trie.new.insertAll ws).findWordsWithPrefix ['d','o'] ↔ w = ['d','o']) ∧
    (∀ w, w ∈ (Trie.new.insertAll ws).findWordsWithPrefix ['d'] ↔
      (w = ['d','a','t','a'] ∨ w = ['d','o'])) := by
  have hmem : ∀ w, w ∈ ws ↔
      (w = ['d','a','t','a'] ∨ w = ['d','o'] ∨ w = ['w','o','r','d','2','v','e','c']) := by
    intro w
    rw [hperm.mem_iff]
    simp
  have hfind : ∀ P w, w ∈ (Trie.new.insertAll ws).findWordsWithPrefix P ↔
      (P <+: w ∧ w ∈ ws) := by
    intro P w
    rw [Trie.mem_findWordsWithPrefix _ (Trie.uniqueKeys_build ws), Trie.search_build]
    simp
  refine ⟨?_, ?_, ?_, ?_, ?_⟩
  · rw [Trie.search_build]
    simp [hmem]
  · rw [Trie.search_build]
    simp [hmem]
  · rw [Trie.startsWith_build]
    have : ∃ w ∈ ws, ['d'] <+: w := ⟨['d','o'], (hmem _).2 (by simp), by decide⟩
    simp [this]
  · intro w
    rw [hfind, hmem]
    constructor
    · rintro ⟨hp, rfl | rfl | rfl⟩
      · exact absurd hp (by decide)
      · rfl
      · exact absurd hp (by decide)
    · rintro rfl
      exact ⟨by decide, by simp⟩
  · intro w
    rw [hfind, hmem]
    constructor
    · rintro ⟨hp, rfl | rfl | rfl⟩
      · exact Or.inl rfl
      · exact Or.inr rfl
      · exact absurd hp (by decide)
    · rintro (rfl | rfl)
      · exact ⟨by decide, by simp⟩
      · exact ⟨by decide, by simp⟩

theorem C8_scenario_witness :
    ([['w','o','r','d','2','v','e','c'], ['d','o'], ['d','a','t','a']] : List (List Char)).Perm
      [['d','a','t','a'], ['d','o'], ['w','o','r','d','2','v','e','c']] ∧
    (Trie.new.insertAll
      [['w','o','r','d','2','v','e','c'], ['d','o'], ['d','a','t','a']]).search ['d','o'] = true ∧
    (Trie.new.insertAll
      [['w','o','r','d','2','v','e','c'], ['d','o'], ['d','a','t','a']]).search ['d'] = false ∧
    (Trie.new.insertAll
      [['w','o','r','d','2','v','e','c'], ['d','o'], ['d','a','t','a']]).startsWith ['d'] = true ∧
    (∀ w, w ∈ (Trie.new.insertAll
      [['w','o','r','d','2','v','e','c'], ['d','o'], ['d','a','t','a']]).findWordsWithPrefix
        ['d','o'] ↔ w = ['d','o']) ∧
    (∀ w, w ∈ (Trie.new.insertAll
      [['w','o','r','d','2','v','e','c'], ['d','o'], ['d','a','t','a']]).findWordsWithPrefix
        ['d'] ↔ (w = ['d','a','t','a'] ∨ w = ['d','o'])) :=
  ⟨by decide,
    C8_scenario [['w','o','r','d','2','v','e','c'], ['d','o'], ['d','a','t','a']] (by decide)⟩

/-- Claim C9: for every trie state (unique keys in every children map) and
every prefix `P`, every word of `findWordsWithPrefix(P)` begins with `P` and
`search` of that word on the same trie returns true. -/
theorem C9_results_sound (t : Trie) (hu : t.root.uniqueKeys = true) (P w : List Char)
    (hw : w ∈ t.findWordsWithPrefix P) : P <+: w ∧ t.search w = true :=
  (Trie.mem_findWordsWithPrefix t hu P w).1 hw

theorem C9_results_sound_witness :
    (Trie.mk (TrieNode.mk [('b', TrieNode.mk [('c', TrieNode.mk [] true)] false),
      ('a', TrieNode.mk [] true)] true)).root.uniqueKeys = true ∧
    ['b','c'] ∈ (Trie.mk (TrieNode.mk [('b', TrieNode.mk [('c', TrieNode.mk [] true)] false),
      ('a', TrieNode.mk [] true)] true)).findWordsWithPrefix ['b'] ∧
    (['b'] <+: ['b','c'] ∧
      (Trie.mk (TrieNode.mk [('b', TrieNode.mk [('c', TrieNode.mk [] true)] false),
        ('a', TrieNode.mk [] true)] true)).search ['b','c'] = true) :=
  ⟨by decide, by decide,
    C9_results_sound
      (Trie.mk (TrieNode.mk [('b', TrieNode.mk [('c', TrieNode.mk [] true)] false),
        ('a', TrieNode.mk [] true)] true))
      (by decide) ['b'] ['b','c'] (by decide)⟩

/-- Claim C10: for every trie state and every prefix `P`, when an edge along
`P` is missing (`startsWith(P)` is false), `findWordsWithPrefix(P)` is the empty
sequence and `search(P)` is false; the queries are total functions into `Bool`
and lists, so none has an error result. -/
theorem C10_absent_path (t : Trie) (P : List Char) (h : t.startsWith P = false) :
    t.findWordsWithPrefix P = [] ∧ t.search P = false :=
  TrieNode.queries_of_startsWith_false t.root P P h

theorem C10_absent_path_witness :
    (Trie.new.insertAll [['d','o']]).startsWith ['d','a'] = false ∧
    (Trie.new.insertAll [['d','o']]).findWordsWithPrefix ['d','a'] = [] ∧
    (Trie.new.insertAll [['d','o']]).search ['d','a'] = false :=
  ⟨by decide, C10_absent_path (Trie.new.insertAll [['d','o']]) ['d','a'] (by decide)⟩

namespace Trie

/-- Outside the fresh trie queried with the empty prefix, `startsWith(P)` is
true iff an inserted word begins with `P`. -/
theorem startsWith_iff_exists_word (ws : List (List Char)) (P : List Char)
    (h : ws ≠ [] ∨ P ≠ []) :
    (Trie.new.insertAll ws).startsWith P = true ↔ ∃ W ∈ ws, P <+: W := by
  rw [startsWith_build]
  simp only [Bool.or_eq_true, decide_eq_true_eq]
  constructor
  · rintro (hex | hnil)
    · exact hex
    · subst hnil
      cases ws with
      | nil => simp at h
      | cons w rest => exact ⟨w, List.mem_cons_self _ _, List.nil_prefix⟩
  · exact fun hex => Or.inl hex

end Trie

/-! ## Two tries with the same paths and flags -/

namespace TrieNode

theorem startsWith_cons (cs : List (Char × TrieNode)) (e : Bool) (c : Char) (r : List Char) :
    startsWith (mk cs e) (c :: r) =
      match childAt cs c with
      | none => false
      | some child => startsWith child r := by
  simp [startsWith]

theorem search_cons (cs : List (Char × TrieNode)) (e : Bool) (c : Char) (r : List Char) :
    search (mk cs e) (c :: r) =
      match childAt cs c with
      | none => false
      | some child => search child r := by
  simp [search]

/-- A trie that answers `startsWith` and `search` like a trie with unique keys
has the same maps and flags, up to the enumeration order. -/
theorem reorderOf_of_queries (t : TrieNode) :
    ∀ t2, uniqueKeys t = true →
      (∀ q, startsWith t2 q = startsWith t q) → (∀ q, search t2 q = search t q) →
      reorderOf t t2 = true := by
  induction t using TrieNode.induct with
  | step cs e ih => ?_
  intro t2 hu hst hse
  obtain ⟨cs2, e2⟩ := t2
  rw [uniqueKeys_iff] at hu
  rw [reorderOf_iff]
  refine ⟨?_, ?_, ?_⟩
  · have := hse []
    simpa [search] using this.symm
  · intro p hp
    have h1 := hst [p.1]
    rw [startsWith_cons, startsWith_cons] at h1
    cases hc2 : childAt cs2 p.1 with
    | none =>
      have := (childAt_eq_none cs2 p.1).1 hc2
      exact absurd (List.mem_map.2 ⟨p, hp, rfl⟩) this
    | some n2 =>
      cases hc : childAt cs p.1 with
      | none => simp [hc, hc2, startsWith] at h1
      | some n => rfl
  · intro p hp
    have hc : childAt cs p.1 = some p.2 := childAt_of_mem hu.1 hp
    have h1 := hst [p.1]
    rw [startsWith_cons, startsWith_cons, hc] at h1
    cases hc2 : childAt cs2 p.1 with
    | none => simp [hc2, startsWith] at h1
    | some n2 =>
      refine ⟨n2, rfl, ih p hp n2 (hu.2 p hp) ?_ ?_⟩
      · intro q
        have := hst (p.1 :: q)
        rw [startsWith_cons, startsWith_cons, hc, hc2] at this
        exact this
      · intro q
        have := hse (p.1 :: q)
        rw [search_cons, search_cons, hc, hc2] at this
        exact this

theorem search_insert_comm (t : TrieNode) (A B q : List Char) :
    search (insert (insert t A) B) q = search (insert (insert t B) A) q := by
  simp only [search_insert]
  cases decide (q = A) <;> cases decide (q = B) <;> simp

theorem startsWith_insert_comm (t : TrieNode) (A B q : List Char) :
    startsWith (insert (insert t A) B) q = startsWith (insert (insert t B) A) q := by
  simp only [startsWith_insert]
  cases decide (q <+: A) <;> cases decide (q <+: B) <;> simp

theorem startsWith_append (t : TrieNode) (P Q : List Char)
    (h : startsWith t (P ++ Q) = true) : startsWith t P = true := by
  induction P generalizing t with
  | nil => cases t; simp [startsWith]
  | cons c r ih =>
    obtain ⟨cs, e⟩ := t
    rw [List.cons_append, startsWith_cons] at h
    rw [startsWith_cons]
    cases hc : childAt cs c with
    | none => simp [hc] at h
    | some child =>
      simp only [hc] at h
      exact ih child h

theorem startsWith_of_search (t : TrieNode) (W : List Char) (h : search t W = true) :
    startsWith t W = true := by
  induction W generalizing t with
  | nil => cases t; simp [startsWith]
  | cons c r ih =>
    obtain ⟨cs, e⟩ := t
    rw [search_cons] at h
    rw [startsWith_cons]
    cases hc : childAt cs c with
    | none => simp [hc] at h
    | some child =>
      simp only [hc] at h
      exact ih child h

end TrieNode

/-! ## The queries leave the state alone -/

namespace TrieNode

theorem count_eq_zero (cs : List (Char × TrieNode)) (ch : Char) :
    count cs ch = 0 ↔ childAt cs ch = none := by
  induction cs with
  | nil => simp [count, childAt]
  | cons hd tl ih =>
    obtain ⟨k, n⟩ := hd
    by_cases hk : k = ch <;> simp [count, childAt, hk, ih]

theorem setChild_self {cs : List (Char × TrieNode)} {ch : Char} {child : TrieNode}
    (h : childAt cs ch = some child) : setChild cs ch child = cs := by
  induction cs with
  | nil => simp [childAt] at h
  | cons hd tl ih =>
    obtain ⟨k, n⟩ := hd
    by_cases hk : k = ch
    · simp only [childAt, hk, if_true, Option.some.injEq] at h
      simp [setChild, hk, h]
    · simp only [childAt, hk, if_false] at h
      simp [setChild, hk, ih h]

theorem searchRun_eq (t : TrieNode) (w : List Char) :
    searchRun t w = Run.done (search t w) t := by
  induction w generalizing t with
  | nil =>
    obtain ⟨cs, e⟩ := t
    simp [searchRun, search]
  | cons c r ih =>
    obtain ⟨cs, e⟩ := t
    cases hc : childAt cs c with
    | none =>
      have h0 := (count_eq_zero cs c).2 hc
      simp [searchRun, search, hc, h0]
    | some child =>
      have h0 : ¬ count cs c = 0 := fun h => by
        rw [count_eq_zero, hc] at h
        cases h
      simp [searchRun, search, hc, h0, ih child, setChild_self hc]

theorem startsWithRun_eq (t : TrieNode) (w : List Char) :
    startsWithRun t w = Run.done (startsWith t w) t := by
  induction w generalizing t with
  | nil =>
    obtain ⟨cs, e⟩ := t
    simp [startsWithRun, startsWith]
  | cons c r ih =>
    obtain ⟨cs, e⟩ := t
    cases hc : childAt cs c with
    | none =>
      have h0 := (count_eq_zero cs c).2 hc
      simp [startsWithRun, startsWith, hc, h0]
    | some child =>
      have h0 : ¬ count cs c = 0 := fun h => by
        rw [count_eq_zero, hc] at h
        cases h
      simp [startsWithRun, startsWith, hc, h0, ih child, setChild_self hc]

theorem findWordsWithPrefixRun_eq (t : TrieNode) (w pre : List Char) :
    findWordsWithPrefixRun t w pre = Run.done (findWordsWithPrefix t w pre) t := by
  induction w generalizing t with
  | nil =>
    obtain ⟨cs, e⟩ := t
    simp [findWordsWithPrefixRun, findWordsWithPrefix]
  | cons c r ih =>
    obtain ⟨cs, e⟩ := t
    cases hc : childAt cs c with
    | none =>
      have h0 := (count_eq_zero cs c).2 hc
      simp [findWordsWithPrefixRun, findWordsWithPrefix, hc, h0]
    | some child =>
      have h0 : ¬ count cs c = 0 := fun h => by
        rw [count_eq_zero, hc] at h
        cases h
      simp [findWordsWithPrefixRun, findWordsWithPrefix, hc, h0, ih child, setChild_self hc]

end TrieNode

/-! ## The claims, continued -/

/-- Claim C11: the insertion order is irrelevant: for every trie state and all
words `A` and `B`, `insert(A); insert(B)` and `insert(B); insert(A)` give the
same trie (the same children maps and flags at every node, compared as maps,
that is up to the enumeration order), the same `search` and `startsWith`
results and the same `findWordsWithPrefix` result set for every query. -/
theorem C11_insert_commutes (t : Trie) (hu : t.root.uniqueKeys = true) (A B : List Char) :
    TrieNode.reorderOf ((t.insert A).insert B).root ((t.insert B).insert A).root = true ∧
    ∀ q : List Char,
      ((t.insert A).insert B).search q = ((t.insert B).insert A).search q ∧
      ((t.insert A).insert B).startsWith q = ((t.insert B).insert A).startsWith q ∧
      ∀ w, w ∈ ((t.insert A).insert B).findWordsWithPrefix q ↔
        w ∈ ((t.insert B).insert A).findWordsWithPrefix q := by
  have huAB : ((t.insert A).insert B).root.uniqueKeys = true :=
    TrieNode.uniqueKeys_insert _ B (TrieNode.uniqueKeys_insert _ A hu)
  have huBA : ((t.insert B).insert A).root.uniqueKeys = true :=
    TrieNode.uniqueKeys_insert _ A (TrieNode.uniqueKeys_insert _ B hu)
  have hse : ∀ q, ((t.insert A).insert B).search q = ((t.insert B).insert A).search q :=
    fun q => TrieNode.search_insert_comm t.root A B q
  have hst : ∀ q, ((t.insert A).insert B).startsWith q = ((t.insert B).insert A).startsWith q :=
    fun q => TrieNode.startsWith_insert_comm t.root A B q
  refine ⟨?_, fun q => ⟨hse q, hst q, fun w => ?_⟩⟩
  · exact TrieNode.reorderOf_of_queries _ _ huAB (fun q => (hst q).symm) (fun q => (hse q).symm)
  · rw [Trie.mem_findWordsWithPrefix _ huAB, Trie.mem_findWordsWithPrefix _ huBA, hse w]

theorem C11_insert_commutes_witness :
    (Trie.new.insert ['d']).root.uniqueKeys = true ∧
    (TrieNode.reorderOf (((Trie.new.insert ['d']).insert ['a', 'b']).insert ['c']).root
        (((Trie.new.insert ['d']).insert ['c']).insert ['a', 'b']).root = true ∧
      ∀ q : List Char,
        (((Trie.new.insert ['d']).insert ['a', 'b']).insert ['c']).search q =
          (((Trie.new.insert ['d']).insert ['c']).insert ['a', 'b']).search q ∧
        (((Trie.new.insert ['d']).insert ['a', 'b']).insert ['c']).startsWith q =
          (((Trie.new.insert ['d']).insert ['c']).insert ['a', 'b']).startsWith q ∧
        ∀ w, w ∈ (((Trie.new.insert ['d']).insert ['a', 'b']).insert ['c']).findWordsWithPrefix q ↔
          w ∈ (((Trie.new.insert ['d']).insert ['c']).insert ['a', 'b']).findWordsWithPrefix q) :=
  ⟨by decide, C11_insert_commutes (Trie.new.insert ['d']) (by decide) ['a', 'b'] ['c']⟩

/-- Claim C12: `search`, `startsWith` and `findWordsWithPrefix` are pure
queries: run as state transformers they return with the trie they were called
on, and the access `children[ch]` never adds an entry, because the test
`count(ch)` has succeeded before it. -/
theorem C12_queries_pure (t : Trie) (q : List Char) :
    TrieNode.searchRun t.root q = TrieNode.Run.done (t.search q) t.root ∧
    TrieNode.startsWithRun t.root q = TrieNode.Run.done (t.startsWith q) t.root ∧
    TrieNode.findWordsWithPrefixRun t.root q q =
      TrieNode.Run.done (t.findWordsWithPrefix q) t.root :=
  ⟨TrieNode.searchRun_eq t.root q, TrieNode.startsWithRun_eq t.root q,
    TrieNode.findWordsWithPrefixRun_eq t.root q q⟩

/-! ## Height, size and the bounded helper -/

namespace TrieNode

theorem height_lt_of_mem {cs : List (Char × TrieNode)} {p : Char × TrieNode} (hp : p ∈ cs) :
    height p.2 < heightList cs := by
  induction cs with
  | nil => cases hp
  | cons hd tl ih =>
    obtain ⟨k, n⟩ := hd
    simp only [heightList]
    rcases List.mem_cons.1 hp with h | h
    · subst h
      exact Nat.lt_of_lt_of_le (Nat.lt_succ_self _) (Nat.le_max_left _ _)
    · exact Nat.lt_of_lt_of_le (ih h) (Nat.le_max_right _ _)

theorem size_le_of_mem {cs : List (Char × TrieNode)} {p : Char × TrieNode} (hp : p ∈ cs) :
    size p.2 ≤ sizeList cs := by
  induction cs with
  | nil => cases hp
  | cons hd tl ih =>
    obtain ⟨k, n⟩ := hd
    simp only [sizeList]
    rcases List.mem_cons.1 hp with h | h
    · subst h
      exact Nat.le_add_right _ _
    · exact Nat.le_trans (ih h) (Nat.le_add_left _ _)

theorem helperChildrenFuel_eq (cs : List (Char × TrieNode)) (fuel : Nat)
    (h : ∀ p ∈ cs, ∀ (cur : List Char) (results : List (List Char)),
      findWordsWithPrefixHelperFuel fuel p.2 cur results =
        some (findWordsWithPrefixHelper p.2 cur results))
    (cur : List Char) (results : List (List Char)) :
    helperChildrenFuel fuel cs cur results = some (helperChildren cs cur results) := by
  induction cs generalizing results with
  | nil => simp [helperChildrenFuel, helperChildren]
  | cons hd tl ih =>
    obtain ⟨ch, child⟩ := hd
    have hhd := h (ch, child) (List.mem_cons_self _ _)
    have htl := ih (fun p hp => h p (List.mem_cons_of_mem _ hp))
    simp only [helperChildrenFuel, helperChildren, hhd, htl]

/-- With more fuel than the height of the subtree, the bounded helper returns
the result of the helper. -/
theorem findWordsWithPrefixHelperFuel_eq (t : TrieNode) :
    ∀ (fuel : Nat) (cur : List Char) (results : List (List Char)), height t < fuel →
      findWordsWithPrefixHelperFuel fuel t cur results =
        some (findWordsWithPrefixHelper t cur results) := by
  induction t using TrieNode.induct with
  | step cs e ih => ?_
  intro fuel cur results hfuel
  cases fuel with
  | zero => exact absurd hfuel (Nat.not_lt_zero _)
  | succ f =>
    simp only [height] at hfuel
    simp only [findWordsWithPrefixHelperFuel, findWordsWithPrefixHelper]
    refine helperChildrenFuel_eq cs f (fun p hp cur2 res2 => ih p hp f cur2 res2 ?_) _ _
    have := height_lt_of_mem hp
    omega

end TrieNode

/-! ## The nodes created by `insert` -/

namespace TrieNode

theorem sizeList_setChild_none {cs : List (Char × TrieNode)} {ch : Char} (n : TrieNode)
    (h : childAt cs ch = none) : sizeList (setChild cs ch n) = sizeList cs + size n := by
  induction cs with
  | nil => simp [setChild, sizeList]
  | cons hd tl ih =>
    obtain ⟨k, m⟩ := hd
    by_cases hk : k = ch
    · simp [childAt, hk] at h
    · simp only [childAt, hk, if_false] at h
      simp only [setChild, hk, if_false, sizeList, ih h]
      omega

theorem sizeList_setChild_some {cs : List (Char × TrieNode)} {ch : Char} {old : TrieNode}
    (n : TrieNode) (h : childAt cs ch = some old) :
    sizeList (setChild cs ch n) + size old = sizeList cs + size n := by
  induction cs with
  | nil => simp [childAt] at h
  | cons hd tl ih =>
    obtain ⟨k, m⟩ := hd
    by_cases hk : k = ch
    · simp only [childAt, hk, if_true, Option.some.injEq] at h
      subst h
      simp only [setChild, hk, if_true, sizeList]
      omega
    · simp only [childAt, hk, if_false] at h
      have := ih h
      simp only [setChild, hk, if_false, sizeList]
      omega

theorem matchLen_new (w : List Char) : matchLen TrieNode.new w = 0 := by
  cases w <;> simp [matchLen, TrieNode.new, childAt]

theorem matchLen_le (t : TrieNode) (w : List Char) : matchLen t w ≤ w.length := by
  induction w generalizing t with
  | nil => cases t; simp [matchLen]
  | cons c r ih =>
    obtain ⟨cs, e⟩ := t
    cases hc : childAt cs c with
    | none => simp [matchLen, hc]
    | some child =>
      have := ih child
      simp only [matchLen, hc, List.length_cons]
      omega

/-- The method `insert` creates one node for every character of the word after
the leading ones whose edge exists already. -/
theorem size_insert (t : TrieNode) (w : List Char) :
    size (insert t w) + matchLen t w = size t + w.length := by
  induction w generalizing t with
  | nil =>
    obtain ⟨cs, e⟩ := t
    simp [insert, matchLen, size]
  | cons c r ih =>
    obtain ⟨cs, e⟩ := t
    cases hc : childAt cs c with
    | none =>
      have h1 := ih TrieNode.new
      rw [matchLen_new] at h1
      have h2 : size TrieNode.new = 1 := by simp [TrieNode.new, size, sizeList]
      simp only [insert, hc, matchLen, size, sizeList_setChild_none _ hc, List.length_cons]
      omega
    | some child =>
      have h1 := ih child
      have h2 := sizeList_setChild_some (insert child r) hc
      simp only [insert, hc, matchLen, size, List.length_cons]
      omega

/-- The number `matchLen` is the length of the longest prefix of the word on
which `startsWith` is true. -/
theorem startsWith_take_iff (t : TrieNode) (w : List Char) (k : Nat) (hk : k ≤ w.length) :
    startsWith t (w.take k) = true ↔ k ≤ matchLen t w := by
  induction w generalizing t k with
  | nil =>
    have : k = 0 := by simpa using hk
    subst this
    cases t
    simp [startsWith, matchLen]
  | cons c r ih =>
    obtain ⟨cs, e⟩ := t
    cases k with
    | zero => simp [startsWith]
    | succ j =>
      have hj : j ≤ r.length := by simpa using hk
      cases hc : childAt cs c with
      | none => simp [startsWith, matchLen, hc]
      | some child =>
        have := ih child j hj
        simp only [List.take_succ_cons, startsWith, matchLen, hc, this]
        omega

end TrieNode

/-- Claim C13: every core operation is total.  The operations are functions
defined by recursion on the word or on the finite tree; in particular each
query returns a value and never reaches the null entry of `children[ch]`,
`insert` returns a trie with at most one more node per character, every child
is a strictly smaller subtree than its parent, and the recursive helper run
with a bound on the nesting of its calls returns its result as soon as the
bound exceeds the height of the subtree. -/
theorem C13_operations_total (t : Trie) (w : List Char) :
    (∃ r, TrieNode.searchRun t.root w = TrieNode.Run.done r t.root) ∧
    (∃ r, TrieNode.startsWithRun t.root w = TrieNode.Run.done r t.root) ∧
    (∃ r, TrieNode.findWordsWithPrefixRun t.root w w = TrieNode.Run.done r t.root) ∧
    (t.insert w).root.size ≤ t.root.size + w.length ∧
    (∀ (cs : List (Char × TrieNode)) (e : Bool) (p : Char × TrieNode), p ∈ cs →
      p.2.size < (TrieNode.mk cs e).size ∧ p.2.height < (TrieNode.mk cs e).height) ∧
    (∀ (node : TrieNode) (cur : List Char) (results : List (List Char)) (extra : Nat),
      TrieNode.findWordsWithPrefixHelperFuel (node.height + 1 + extra) node cur results =
        some (TrieNode.findWordsWithPrefixHelper node cur results)) := by
  refine ⟨⟨_, TrieNode.searchRun_eq t.root w⟩, ⟨_, TrieNode.startsWithRun_eq t.root w⟩,
    ⟨_, TrieNode.findWordsWithPrefixRun_eq t.root w w⟩, ?_, ?_, ?_⟩
  · have := TrieNode.size_insert t.root w
    simp only [Trie.insert]
    omega
  · intro cs e p hp
    have h1 := TrieNode.size_le_of_mem hp
    have h2 := TrieNode.height_lt_of_mem hp
    simp only [TrieNode.size, TrieNode.height]
    omega
  · intro node cur results extra
    exact TrieNode.findWordsWithPrefixHelperFuel_eq node _ cur results (by omega)

theorem C13_operations_total_witness :
    ((∃ r, TrieNode.searchRun (Trie.new.insertAll [['d','o'], ['a']]).root ['d'] =
        TrieNode.Run.done r (Trie.new.insertAll [['d','o'], ['a']]).root) ∧
      (TrieNode.mk [] true).size < (TrieNode.mk [('a', TrieNode.mk [] true)] false).size ∧
      TrieNode.findWordsWithPrefixHelperFuel 3 (Trie.new.insertAll [['d','o'], ['a']]).root [] [] =
        some [['d','o'], ['a']]) :=
  ⟨(C13_operations_total (Trie.new.insertAll [['d','o'], ['a']]) ['d']).1,
    ((C13_operations_total Trie.new []).2.2.2.2.1 [('a', TrieNode.mk [] true)] false
      ('a', TrieNode.mk [] true) (List.mem_cons_self _ _)).1,
    (C13_operations_total Trie.new []).2.2.2.2.2
      (Trie.new.insertAll [['d','o'], ['a']]).root [] [] 0⟩

/-- Claim C15: `insert` creates nodes on demand and removes none: when `k` is
the length of the longest prefix of `W` on which `startsWith` is true before
the call, `insert(W)` adds exactly `|W| - k` nodes, every path that existed
still exists, and every word that was found is still found. -/
theorem C15_insert_creates_on_demand (t : Trie) (W : List Char) (k : Nat)
    (hk : k ≤ W.length) (hpre : t.startsWith (W.take k) = true)
    (hmax : ∀ j, k < j → j ≤ W.length → t.startsWith (W.take j) = false) :
    (t.insert W).root.size = t.root.size + (W.length - k) ∧
    (∀ q, t.startsWith q = true → (t.insert W).startsWith q = true) ∧
    (∀ q, t.search q = true → (t.insert W).search q = true) := by
  have hle := TrieNode.matchLen_le t.root W
  have h1 : k ≤ TrieNode.matchLen t.root W :=
    (TrieNode.startsWith_take_iff t.root W k hk).1 hpre
  have h2 : TrieNode.matchLen t.root W ≤ k := by
    by_contra hlt
    have hlt2 : k < TrieNode.matchLen t.root W := Nat.lt_of_not_le hlt
    have hf := hmax (TrieNode.matchLen t.root W) hlt2 hle
    have ht := (TrieNode.startsWith_take_iff t.root W _ hle).2 (Nat.le_refl _)
    rw [Trie.startsWith] at hf
    rw [hf] at ht
    cases ht
  have hsize := TrieNode.size_insert t.root W
  refine ⟨?_, ?_, ?_⟩
  · simp only [Trie.insert]
    omega
  · intro q hq
    simp only [Trie.startsWith, Trie.insert, TrieNode.startsWith_insert] at hq ⊢
    simp [hq]
  · intro q hq
    simp only [Trie.search, Trie.insert, TrieNode.search_insert] at hq ⊢
    simp [hq]

theorem C15_insert_creates_on_demand_witness :
    (2 ≤ ['d','o','n','e'].length ∧
      (Trie.new.insertAll [['d','o'], ['a']]).startsWith (['d','o','n','e'].take 2) = true) ∧
    (((Trie.new.insertAll [['d','o'], ['a']]).insert ['d','o','n','e']).root.size =
        (Trie.new.insertAll [['d','o'], ['a']]).root.size + (['d','o','n','e'].length - 2) ∧
      (∀ q, (Trie.new.insertAll [['d','o'], ['a']]).startsWith q = true →
        ((Trie.new.insertAll [['d','o'], ['a']]).insert ['d','o','n','e']).startsWith q = true) ∧
      (∀ q, (Trie.new.insertAll [['d','o'], ['a']]).search q = true →
        ((Trie.new.insertAll [['d','o'], ['a']]).insert ['d','o','n','e']).search q = true)) :=
  ⟨⟨by decide, by decide⟩,
    C15_insert_creates_on_demand (Trie.new.insertAll [['d','o'], ['a']]) ['d','o','n','e'] 2
      (by decide) (by decide)
      (fun j h1 h2 => by
        have h3 : j ≤ 4 := h2
        have hj : j = 3 ∨ j = 4 := by omega
        rcases hj with rfl | rfl <;> decide)⟩

/-- Claim C17: `insert(W)` changes the membership of `W` only: for every trie
state and every word `W2` different from `W`, `search(W2)` returns the same
value after `insert(W)` as before it. -/
theorem C17_insert_frame (t : Trie) (W W2 : List Char) (h : W2 ≠ W) :
    (t.insert W).search W2 = t.search W2 := by
  simp [Trie.search, Trie.insert, TrieNode.search_insert, h]

theorem C17_insert_frame_witness :
    ['d'] ≠ ['d','o'] ∧
    ((Trie.new.insert ['a']).insert ['d','o']).search ['d'] =
      (Trie.new.insert ['a']).search ['d'] :=
  ⟨by decide, C17_insert_frame (Trie.new.insert ['a']) ['d','o'] ['d'] (by decide)⟩

/-- Claim C20: for every trie state, `startsWith(P ++ Q) = true` implies
`startsWith(P) = true`, and when `search(W)` is true then `startsWith(P)` is
true for every prefix `P` of `W`, the empty prefix and `W` itself included. -/
theorem C20_prefix_closed (t : Trie) (W P Q : List Char) :
    (t.startsWith (P ++ Q) = true → t.startsWith P = true) ∧
    (t.search W = true → P <+: W → t.startsWith P = true) := by
  refine ⟨TrieNode.startsWith_append t.root P Q, ?_⟩
  rintro hs ⟨s, rfl⟩
  exact TrieNode.startsWith_append t.root P s (TrieNode.startsWith_of_search t.root _ hs)

theorem C20_prefix_closed_witness :
    (Trie.new.insert ['d','o','n','e']).startsWith (['d','o'] ++ ['n']) = true ∧
    (Trie.new.insert ['d','o','n','e']).search ['d','o','n','e'] = true ∧
    ['d','o'] <+: ['d','o','n','e'] ∧
    (Trie.new.insert ['d','o','n','e']).startsWith ['d','o'] = true ∧
    (Trie.new.insert ['d','o','n','e']).startsWith ['d','o'] = true :=
  ⟨by decide, by decide, by decide,
    (C20_prefix_closed (Trie.new.insert ['d','o','n','e']) ['d','o','n','e'] ['d','o'] ['n']).1
      (by decide),
    (C20_prefix_closed (Trie.new.insert ['d','o','n','e']) ['d','o','n','e'] ['d','o'] ['n']).2
      (by decide) (by decide)⟩

/-! ## The height after `insert` -/

namespace TrieNode

theorem heightList_setChild (cs : List (Char × TrieNode)) (ch : Char) (n : TrieNode)
    (h : ∀ old, childAt cs ch = some old → height old ≤ height n) :
    heightList (setChild cs ch n) = max (heightList cs) (height n + 1) := by
  induction cs with
  | nil => simp [setChild, heightList]
  | cons hd tl ih =>
    obtain ⟨k, m⟩ := hd
    by_cases hk : k = ch
    · have hm : height m ≤ height n := h m (by simp [childAt, hk])
      simp only [setChild, hk, if_true, heightList]
      omega
    · have ih2 := ih (fun old ho => h old (by simpa [childAt, hk] using ho))
      simp only [setChild, hk, if_false, heightList, ih2]
      omega

/-- The method `insert` makes the tree as deep as the word is long, and no
deeper. -/
theorem height_insert (t : TrieNode) (w : List Char) :
    height (insert t w) = max (height t) w.length := by
  induction w generalizing t with
  | nil =>
    obtain ⟨cs, e⟩ := t
    simp [insert, height]
  | cons c r ih =>
    obtain ⟨cs, e⟩ := t
    cases hc : childAt cs c with
    | none =>
      have h1 := ih TrieNode.new
      have h2 : height TrieNode.new = 0 := by simp [TrieNode.new, height, heightList]
      have h3 := heightList_setChild cs c (insert TrieNode.new r)
        (fun old ho => by rw [hc] at ho; cases ho)
      simp only [insert, hc, height, h3, List.length_cons]
      omega
    | some child =>
      have h1 := ih child
      have h2 := height_lt_of_mem (mem_of_childAt hc)
      have h3 := heightList_setChild cs c (insert child r)
        (fun old ho => by
          rw [hc] at ho
          cases ho
          omega)
      simp only [insert, hc, height, h3, List.length_cons]
      simp only at h2
      omega

theorem nodeAt_height (t : TrieNode) (P : List Char) (n : TrieNode)
    (h : nodeAt t P = some n) : P.length + height n ≤ height t := by
  induction P generalizing t with
  | nil =>
    cases t
    simp only [nodeAt, Option.some.injEq] at h
    subst h
    simp
  | cons c r ih =>
    obtain ⟨cs, e⟩ := t
    cases hc : childAt cs c with
    | none => simp [nodeAt, hc] at h
    | some child =>
      simp only [nodeAt, hc] at h
      have h1 := ih child h
      have h2 := height_lt_of_mem (mem_of_childAt hc)
      simp only [height, List.length_cons]
      simp only at h2
      omega

theorem startsWith_iff_nodeAt (t : TrieNode) (P : List Char) :
    startsWith t P = true ↔ ∃ n, nodeAt t P = some n := by
  induction P generalizing t with
  | nil => cases t; simp [startsWith, nodeAt]
  | cons c r ih =>
    obtain ⟨cs, e⟩ := t
    cases hc : childAt cs c with
    | none => simp [startsWith, nodeAt, hc]
    | some child => simpa [startsWith, nodeAt, hc] using ih child

end TrieNode

namespace Trie

theorem height_insertAll (t : Trie) (ws : List (List Char)) :
    (t.insertAll ws).root.height = max t.root.height ((ws.map List.length).foldr max 0) := by
  induction ws generalizing t with
  | nil => simp [insertAll]
  | cons w rest ih =>
    have h := ih (t.insert w)
    simp only [insertAll, List.foldl_cons] at h ⊢
    rw [h]
    simp only [insert, TrieNode.height_insert, List.map_cons, List.foldr_cons]
    omega

theorem exists_longest (ws : List (List Char)) :
    (ws.map List.length).foldr max 0 = 0 ∨
      ∃ w ∈ ws, w.length = (ws.map List.length).foldr max 0 := by
  induction ws with
  | nil => simp
  | cons w rest ih =>
    simp only [List.map_cons, List.foldr_cons]
    rcases Nat.le_total w.length ((rest.map List.length).foldr max 0) with hle | hle
    · rw [Nat.max_eq_right hle]
      rcases ih with h0 | ⟨v, hv, hlen⟩
      · exact Or.inl h0
      · exact Or.inr ⟨v, List.mem_cons_of_mem _ hv, hlen⟩
    · rw [Nat.max_eq_left hle]
      exact Or.inr ⟨w, List.mem_cons_self _ _, rfl⟩

end Trie

/-- Claim C16: for a trie built from a fresh `Trie` by a finite sequence of
inserts, the depth of the tree (the length of the longest root-to-node path)
is the length of the longest inserted word, `0` when there is none or only
the empty word, and the node reached along `P` lies at depth `|P|`: the path to
it has length `|P|` and its subtree fits below it in the tree. -/
theorem C16_depth_is_longest_word (ws : List (List Char)) :
    (Trie.new.insertAll ws).root.height = (ws.map List.length).foldr max 0 ∧
    (∀ P, (Trie.new.insertAll ws).startsWith P = true →
      P.length ≤ (ws.map List.length).foldr max 0) ∧
    (∃ P, (Trie.new.insertAll ws).startsWith P = true ∧
      P.length = (ws.map List.length).foldr max 0) ∧
    (∀ P n, TrieNode.nodeAt (Trie.new.insertAll ws).root P = some n →
      P.length + n.height ≤ (Trie.new.insertAll ws).root.height) := by
  have hh : (Trie.new.insertAll ws).root.height = (ws.map List.length).foldr max 0 := by
    rw [Trie.height_insertAll]
    simp [Trie.new, TrieNode.new, TrieNode.height, TrieNode.heightList]
  refine ⟨hh, ?_, ?_, ?_⟩
  · intro P hP
    obtain ⟨n, hn⟩ := (TrieNode.startsWith_iff_nodeAt _ P).1 hP
    have := TrieNode.nodeAt_height _ P n hn
    omega
  · rcases Trie.exists_longest ws with h0 | ⟨w, hw, hlen⟩
    · exact ⟨[], by simp [Trie.startsWith, TrieNode.startsWith], by simp [h0]⟩
    · refine ⟨w, ?_, hlen⟩
      rw [Trie.startsWith_build]
      have : ∃ v ∈ ws, w <+: v := ⟨w, hw, List.prefix_refl w⟩
      simp [this]
  · intro P n hn
    exact TrieNode.nodeAt_height _ P n hn

theorem C16_depth_is_longest_word_witness :
    (Trie.new.insertAll [['d','o'], ['a']]).root.height = 2 ∧
    (Trie.new.insertAll [['d','o'], ['a']]).startsWith ['d'] = true ∧
    ['d'].length ≤ 2 ∧
    (TrieNode.nodeAt (Trie.new.insertAll [['d','o'], ['a']]).root ['d'] =
      some (TrieNode.mk [('o', TrieNode.mk [] true)] false)) ∧
    ['d'].length + (TrieNode.mk [('o', TrieNode.mk [] true)] false).height ≤
      (Trie.new.insertAll [['d','o'], ['a']]).root.height :=
  ⟨(C16_depth_is_longest_word [['d','o'], ['a']]).1, by decide,
    (C16_depth_is_longest_word [['d','o'], ['a']]).2.1 ['d'] (by decide), by rfl,
    (C16_depth_is_longest_word [['d','o'], ['a']]).2.2.2 ['d'] _ (by rfl)⟩

/-! ## The shape of the enumeration -/

namespace TrieNode

theorem helperChildren_append (cs : List (Char × TrieNode))
    (h : ∀ p ∈ cs, ∀ (cur : List Char) (results : List (List Char)),
      findWordsWithPrefixHelper p.2 cur results =
        results ++ findWordsWithPrefixHelper p.2 cur [])
    (cur : List Char) (results : List (List Char)) :
    helperChildren cs cur results = results ++ helperChildren cs cur [] := by
  induction cs generalizing results with
  | nil => simp [helperChildren]
  | cons hd tl ih =>
    obtain ⟨ch, child⟩ := hd
    have hhd := h (ch, child) (List.mem_cons_self _ _)
    have htl := ih (fun p hp => h p (List.mem_cons_of_mem _ hp))
    simp only [helperChildren]
    rw [htl (findWordsWithPrefixHelper child (cur ++ [ch]) results),
      htl (findWordsWithPrefixHelper child (cur ++ [ch]) []), hhd (cur ++ [ch]) results,
      List.append_assoc]

/-- The helper appends its words to `results`. -/
theorem findWordsWithPrefixHelper_append (t : TrieNode) :
    ∀ (cur : List Char) (results : List (List Char)),
      findWordsWithPrefixHelper t cur results =
        results ++ findWordsWithPrefixHelper t cur [] := by
  induction t using TrieNode.induct with
  | step cs e ih => ?_
  intro cur results
  simp only [findWordsWithPrefixHelper]
  rw [helperChildren_append cs ih cur (if e = true then results ++ [cur] else results),
    helperChildren_append cs ih cur (if e = true then [] ++ [cur] else [])]
  cases e <;> simp

theorem helperChildren_cons_nil (ch : Char) (child : TrieNode) (tl : List (Char × TrieNode))
    (cur : List Char) :
    helperChildren ((ch, child) :: tl) cur [] =
      findWordsWithPrefixHelper child (cur ++ [ch]) [] ++ helperChildren tl cur [] := by
  simp only [helperChildren]
  exact helperChildren_append tl (fun p _ => findWordsWithPrefixHelper_append p.2) cur _

theorem findWordsWithPrefixHelper_nil (cs : List (Char × TrieNode)) (e : Bool)
    (cur : List Char) :
    findWordsWithPrefixHelper (mk cs e) cur [] =
      (if e = true then [cur] else []) ++ helperChildren cs cur [] := by
  simp only [findWordsWithPrefixHelper]
  rw [helperChildren_append cs (fun p _ => findWordsWithPrefixHelper_append p.2)]
  cases e <;> simp

/-- The words that the loop over the children produces. -/
theorem helperChildren_mem_nil (cs : List (Char × TrieNode))
    (hu : ∀ p ∈ cs, uniqueKeys p.2 = true) (cur w : List Char) :
    w ∈ helperChildren cs cur [] ↔
      ∃ p ∈ cs, ∃ s, w = cur ++ p.1 :: s ∧ search p.2 s = true := by
  rw [helperChildren_mem cs (fun p hp => findWordsWithPrefixHelper_mem p.2 (hu p hp)) cur [] w]
  simp

theorem append_cons_ne_self (cur s : List Char) (c : Char) : cur ++ c :: s ≠ cur := by
  intro h
  have := congrArg List.length h
  simp at this

theorem helperChildren_nodup (cs : List (Char × TrieNode))
    (hk : (cs.map Prod.fst).Nodup) (hu : ∀ p ∈ cs, uniqueKeys p.2 = true)
    (h : ∀ p ∈ cs, ∀ cur : List Char, (findWordsWithPrefixHelper p.2 cur []).Nodup)
    (cur : List Char) : (helperChildren cs cur []).Nodup := by
  induction cs with
  | nil => simp [helperChildren]
  | cons hd tl ih =>
    obtain ⟨ch, child⟩ := hd
    rw [List.map_cons, List.nodup_cons] at hk
    have hutl : ∀ p ∈ tl, uniqueKeys p.2 = true := fun p hp => hu p (List.mem_cons_of_mem _ hp)
    rw [helperChildren_cons_nil, List.nodup_append]
    refine ⟨h (ch, child) (List.mem_cons_self _ _) _,
      ih hk.2 hutl (fun p hp => h p (List.mem_cons_of_mem _ hp)), ?_⟩
    intro w hw1 hw2
    rw [findWordsWithPrefixHelper_mem child (hu (ch, child) (List.mem_cons_self _ _))] at hw1
    rw [helperChildren_mem_nil tl hutl] at hw2
    rcases hw1 with hw1 | ⟨s, hs, _⟩
    · cases hw1
    · obtain ⟨p, hp, s2, hs2, _⟩ := hw2
      rw [hs, List.append_assoc, List.singleton_append] at hs2
      have := List.append_cancel_left hs2
      simp only [List.cons.injEq] at this
      exact hk.1 (List.mem_map.2 ⟨p, hp, this.1.symm⟩)

/-- The helper started on the empty vector returns no word twice. -/
theorem findWordsWithPrefixHelper_nodup (t : TrieNode) :
    uniqueKeys t = true → ∀ cur : List Char, (findWordsWithPrefixHelper t cur []).Nodup := by
  induction t using TrieNode.induct with
  | step cs e ih => ?_
  intro hu cur
  rw [uniqueKeys_iff] at hu
  rw [findWordsWithPrefixHelper_nil, List.nodup_append]
  refine ⟨by cases e <;> simp,
    helperChildren_nodup cs hu.1 hu.2 (fun p hp => ih p hp (hu.2 p hp)) cur, ?_⟩
  intro w hw1 hw2
  rw [helperChildren_mem_nil cs hu.2] at hw2
  obtain ⟨p, _, s, hs, _⟩ := hw2
  have hcur : w = cur := by
    cases e <;> simp at hw1
    exact hw1
  rw [hcur] at hs
  exact append_cons_ne_self cur s p.1 hs.symm

theorem uniqueKeys_nodeAt (t : TrieNode) (P : List Char) (n : TrieNode)
    (hu : uniqueKeys t = true) (h : nodeAt t P = some n) : uniqueKeys n = true := by
  induction P generalizing t with
  | nil =>
    cases t
    simp only [nodeAt, Option.some.injEq] at h
    subst h
    exact hu
  | cons c r ih =>
    obtain ⟨cs, e⟩ := t
    rw [uniqueKeys_iff] at hu
    cases hc : childAt cs c with
    | none => simp [nodeAt, hc] at h
    | some child =>
      simp only [nodeAt, hc] at h
      exact ih child (hu.2 _ (mem_of_childAt hc)) h

theorem findWordsWithPrefix_eq_nodeAt (t : TrieNode) (rest pre : List Char) :
    findWordsWithPrefix t rest pre =
      match nodeAt t rest with
      | none => []
      | some n => findWordsWithPrefixHelper n pre [] := by
  induction rest generalizing t with
  | nil => cases t; simp [findWordsWithPrefix, nodeAt]
  | cons c r ih =>
    obtain ⟨cs, e⟩ := t
    cases hc : childAt cs c with
    | none => simp [findWordsWithPrefix, nodeAt, hc]
    | some child => simpa [findWordsWithPrefix, nodeAt, hc] using ih child

end TrieNode

namespace Trie

theorem findWordsWithPrefix_nodup (t : Trie) (hu : t.root.uniqueKeys = true) (P : List Char) :
    (t.findWordsWithPrefix P).Nodup := by
  rw [findWordsWithPrefix, TrieNode.findWordsWithPrefix_eq_nodeAt]
  cases hn : TrieNode.nodeAt t.root P with
  | none => simp
  | some n =>
    exact TrieNode.findWordsWithPrefixHelper_nodup n
      (TrieNode.uniqueKeys_nodeAt t.root P n hu hn) P

end Trie

/-! ## The order of the enumeration -/

namespace TrieNode

theorem key_eq_of_prefix {cur s s2 : List Char} {a b : Char}
    (h : cur ++ a :: s <+: cur ++ b :: s2) : a = b := by
  rw [List.prefix_append_right_inj, List.cons_prefix_cons] at h
  exact h.1

theorem helperChildren_preorder (cs : List (Char × TrieNode))
    (hk : (cs.map Prod.fst).Nodup) (hu : ∀ p ∈ cs, uniqueKeys p.2 = true)
    (h : ∀ p ∈ cs, ∀ cur U V : List Char,
      U ∈ findWordsWithPrefixHelper p.2 cur [] → V ∈ findWordsWithPrefixHelper p.2 cur [] →
      U <+: V → U ≠ V → List.Sublist [U, V] (findWordsWithPrefixHelper p.2 cur []))
    (cur U V : List Char)
    (hU : U ∈ helperChildren cs cur []) (hV : V ∈ helperChildren cs cur [])
    (hpre : U <+: V) (hne : U ≠ V) : List.Sublist [U, V] (helperChildren cs cur []) := by
  induction cs with
  | nil => simp [helperChildren] at hU
  | cons hd tl ih =>
    obtain ⟨ch, child⟩ := hd
    rw [List.map_cons, List.nodup_cons] at hk
    have huhd := hu (ch, child) (List.mem_cons_self _ _)
    have hutl : ∀ p ∈ tl, uniqueKeys p.2 = true := fun p hp => hu p (List.mem_cons_of_mem _ hp)
    rw [helperChildren_cons_nil] at hU hV ⊢
    have hform1 : ∀ w, w ∈ findWordsWithPrefixHelper child (cur ++ [ch]) [] →
        ∃ s, w = cur ++ ch :: s := by
      intro w hw
      rw [findWordsWithPrefixHelper_mem child huhd] at hw
      rcases hw with hw | ⟨s, hs, _⟩
      · cases hw
      · exact ⟨s, by simpa using hs⟩
    have hform2 : ∀ w, w ∈ helperChildren tl cur [] →
        ∃ p ∈ tl, ∃ s, w = cur ++ p.1 :: s := by
      intro w hw
      rw [helperChildren_mem_nil tl hutl] at hw
      obtain ⟨p, hp, s, hs, _⟩ := hw
      exact ⟨p, hp, s, hs⟩
    rcases List.mem_append.1 hU with hU1 | hU2
    · rcases List.mem_append.1 hV with hV1 | hV2
      · exact (h (ch, child) (List.mem_cons_self _ _) _ U V hU1 hV1 hpre hne).trans
          (List.sublist_append_left _ _)
      · obtain ⟨s, hs⟩ := hform1 U hU1
        obtain ⟨p, hp, s2, hs2⟩ := hform2 V hV2
        rw [hs, hs2] at hpre
        have := key_eq_of_prefix hpre
        exact absurd (List.mem_map.2 ⟨p, hp, this.symm⟩) hk.1
    · rcases List.mem_append.1 hV with hV1 | hV2
      · obtain ⟨s, hs⟩ := hform1 V hV1
        obtain ⟨p, hp, s2, hs2⟩ := hform2 U hU2
        rw [hs, hs2] at hpre
        have := key_eq_of_prefix hpre
        exact absurd (List.mem_map.2 ⟨p, hp, this⟩) hk.1
      · exact (ih hk.2 hutl (fun p hp => h p (List.mem_cons_of_mem _ hp)) hU2 hV2).trans
          (List.sublist_append_right _ _)

/-- In the result of the helper a word stands before every word that extends
it. -/
theorem findWordsWithPrefixHelper_preorder (t : TrieNode) :
    uniqueKeys t = true → ∀ cur U V : List Char,
      U ∈ findWordsWithPrefixHelper t cur [] → V ∈ findWordsWithPrefixHelper t cur [] →
      U <+: V → U ≠ V → List.Sublist [U, V] (findWordsWithPrefixHelper t cur []) := by
  induction t using TrieNode.induct with
  | step cs e ih => ?_
  intro hu cur U V hU hV hpre hne
  rw [uniqueKeys_iff] at hu
  rw [findWordsWithPrefixHelper_nil] at hU hV ⊢
  have hform : ∀ w, w ∈ helperChildren cs cur [] → ∃ c s, w = cur ++ c :: s := by
    intro w hw
    rw [helperChildren_mem_nil cs hu.2] at hw
    obtain ⟨p, _, s, hs, _⟩ := hw
    exact ⟨p.1, s, hs⟩
  have hhead : ∀ w, w ∈ (if e = true then [cur] else []) → e = true ∧ w = cur := by
    intro w hw
    cases e <;> simp at hw
    exact ⟨rfl, hw⟩
  rcases List.mem_append.1 hU with hU1 | hU2
  · obtain ⟨he, hUc⟩ := hhead U hU1
    rcases List.mem_append.1 hV with hV1 | hV2
    · exact absurd (hUc.trans (hhead V hV1).2.symm) hne
    · subst he
      subst hUc
      simp only [if_true, List.singleton_append]
      exact List.Sublist.cons₂ _ (List.singleton_sublist.2 hV2)
  · rcases List.mem_append.1 hV with hV1 | hV2
    · obtain ⟨c, s, hs⟩ := hform U hU2
      have hVc := (hhead V hV1).2
      have hlen := hpre.length_le
      rw [hs, hVc] at hlen
      simp at hlen
    · exact (helperChildren_preorder cs hu.1 hu.2 (fun p hp => ih p hp (hu.2 p hp))
        cur U V hU2 hV2 hpre hne).trans (List.sublist_append_right _ _)

end TrieNode

/-- Claim C14: the enumeration is pre-order: for every trie state (unique keys,
any enumeration order of the children) and every prefix `P`, when `U` and `V`
both occur in `findWordsWithPrefix(P)` and `U` is a strict prefix of `V`, then
`U` occurs before `V` in the returned list; and when `search(P)` is true the
first element of the result is `P`. -/
theorem C14_enumeration_preorder (t : Trie) (hu : t.root.uniqueKeys = true) (P : List Char) :
    (∀ U V, U ∈ t.findWordsWithPrefix P → V ∈ t.findWordsWithPrefix P →
      U <+: V → U ≠ V → List.Sublist [U, V] (t.findWordsWithPrefix P)) ∧
    (t.search P = true → (t.findWordsWithPrefix P).head? = some P) := by
  constructor
  · intro U V hU hV hpre hne
    rw [Trie.findWordsWithPrefix, TrieNode.findWordsWithPrefix_eq_nodeAt] at hU hV ⊢
    cases hn : TrieNode.nodeAt t.root P with
    | none => simp [hn] at hU
    | some n =>
      simp only [hn] at hU hV ⊢
      exact TrieNode.findWordsWithPrefixHelper_preorder n
        (TrieNode.uniqueKeys_nodeAt t.root P n hu hn) P U V hU hV hpre hne
  · intro hs
    rw [Trie.search, TrieNode.search_iff_nodeAt] at hs
    obtain ⟨n, hn, he⟩ := hs
    rw [Trie.findWordsWithPrefix, TrieNode.findWordsWithPrefix_eq_nodeAt, hn]
    obtain ⟨cs, e⟩ := n
    simp only [TrieNode.isEndOfWord] at he
    subst he
    simp [TrieNode.findWordsWithPrefixHelper_nil]

theorem C14_enumeration_preorder_witness :
    (Trie.new.insertAll [['d','o','n','e'], ['a'], ['d','o'], ['d','a']]).root.uniqueKeys = true ∧
    List.Sublist [['d','o'], ['d','o','n','e']]
      ((Trie.new.insertAll
        [['d','o','n','e'], ['a'], ['d','o'], ['d','a']]).findWordsWithPrefix ['d']) ∧
    (Trie.new.insertAll
      [['d','o','n','e'], ['a'], ['d','o'], ['d','a']]).findWordsWithPrefix ['d'] =
      [['d','o'], ['d','o','n','e'], ['d','a']] ∧
    ((Trie.new.insertAll
      [['d','o','n','e'], ['a'], ['d','o'], ['d','a']]).findWordsWithPrefix ['d','o']).head?
      = some ['d','o'] :=
  ⟨by decide,
    (C14_enumeration_preorder
      (Trie.new.insertAll [['d','o','n','e'], ['a'], ['d','o'], ['d','a']]) (by decide) ['d']).1
      ['d','o'] ['d','o','n','e'] (by decide) (by decide) (by decide) (by decide),
    by decide,
    (C14_enumeration_preorder
      (Trie.new.insertAll [['d','o','n','e'], ['a'], ['d','o'], ['d','a']]) (by decide)
      ['d','o']).2 (by decide)⟩

/-- Claim C18: for every trie state with unique child keys per node and every
prefix `P`, the list returned by `findWordsWithPrefix(P)` has no duplicates,
also when words were inserted several times; its length is the number of
distinct stored words that begin with `P`. -/
theorem C18_no_duplicates (t : Trie) (hu : t.root.uniqueKeys = true) (P : List Char) :
    (t.findWordsWithPrefix P).Nodup ∧
    (t.findWordsWithPrefix P).length =
      Set.ncard {w : List Char | P <+: w ∧ t.search w = true} := by
  have hnd := Trie.findWordsWithPrefix_nodup t hu P
  refine ⟨hnd, ?_⟩
  have hset : {w : List Char | P <+: w ∧ t.search w = true} =
      ((t.findWordsWithPrefix P).toFinset : Set (List Char)) := by
    ext w
    simp [Trie.mem_findWordsWithPrefix t hu]
  rw [hset, Set.ncard_coe_Finset, List.toFinset_card_of_nodup hnd]

theorem C18_no_duplicates_witness :
    (Trie.new.insertAll [['d','o'], ['d','a'], ['d','o'], ['a'], ['d','o']]).root.uniqueKeys
      = true ∧
    ((Trie.new.insertAll
        [['d','o'], ['d','a'], ['d','o'], ['a'], ['d','o']]).findWordsWithPrefix ['d']).Nodup ∧
    ((Trie.new.insertAll
        [['d','o'], ['d','a'], ['d','o'], ['a'], ['d','o']]).findWordsWithPrefix ['d']).length =
      Set.ncard {w : List Char | ['d'] <+: w ∧
        (Trie.new.insertAll [['d','o'], ['d','a'], ['d','o'], ['a'], ['d','o']]).search w
          = true} :=
  ⟨by decide,
    C18_no_duplicates (Trie.new.insertAll [['d','o'], ['d','a'], ['d','o'], ['a'], ['d','o']])
      (by decide) ['d']⟩

/-! ## No dead branches -/

namespace TrieNode

theorem hasWordList_iff (cs : List (Char × TrieNode)) :
    hasWordList cs = true ↔ ∃ p ∈ cs, hasWord p.2 = true := by
  induction cs with
  | nil => simp [hasWordList]
  | cons hd tl ih =>
    obtain ⟨k, n⟩ := hd
    simp [hasWordList, ih]

theorem noDeadBranchList_iff (cs : List (Char × TrieNode)) :
    noDeadBranchList cs = true ↔
      ∀ p ∈ cs, hasWord p.2 = true ∧ noDeadBranch p.2 = true := by
  induction cs with
  | nil => simp [noDeadBranchList]
  | cons hd tl ih =>
    obtain ⟨k, n⟩ := hd
    simp [noDeadBranchList, ih, and_assoc]

theorem mem_setChild_self (cs : List (Char × TrieNode)) (ch : Char) (n : TrieNode) :
    (ch, n) ∈ setChild cs ch n := by
  induction cs with
  | nil => simp [setChild]
  | cons hd tl ih =>
    obtain ⟨k, m⟩ := hd
    by_cases hk : k = ch
    · simp [setChild, hk]
    · simp only [setChild, hk, if_false]
      exact List.mem_cons_of_mem _ ih

/-- After `insert` the subtree holds a flagged node. -/
theorem hasWord_insert (t : TrieNode) (w : List Char) : hasWord (insert t w) = true := by
  induction w generalizing t with
  | nil =>
    obtain ⟨cs, e⟩ := t
    simp [insert, hasWord]
  | cons c r ih =>
    obtain ⟨cs, e⟩ := t
    cases hc : childAt cs c with
    | none =>
      simp only [insert, hc, hasWord, Bool.or_eq_true]
      exact Or.inr ((hasWordList_iff _).2 ⟨_, mem_setChild_self cs c _, ih TrieNode.new⟩)
    | some child =>
      simp only [insert, hc, hasWord, Bool.or_eq_true]
      exact Or.inr ((hasWordList_iff _).2 ⟨_, mem_setChild_self cs c _, ih child⟩)

theorem noDeadBranch_new : noDeadBranch TrieNode.new = true := by
  simp [TrieNode.new, noDeadBranch, noDeadBranchList]

/-- The method `insert` keeps the trie free of dead branches. -/
theorem noDeadBranch_insert (t : TrieNode) (w : List Char) (h : noDeadBranch t = true) :
    noDeadBranch (insert t w) = true := by
  induction w generalizing t with
  | nil =>
    obtain ⟨cs, e⟩ := t
    simpa [insert, noDeadBranch] using h
  | cons c r ih =>
    obtain ⟨cs, e⟩ := t
    simp only [noDeadBranch, noDeadBranchList_iff] at h
    cases hc : childAt cs c with
    | none =>
      simp only [insert, hc, noDeadBranch, noDeadBranchList_iff]
      intro p hp
      rcases mem_setChild hp with hp | hp
      · subst hp
        exact ⟨hasWord_insert _ r, ih _ noDeadBranch_new⟩
      · exact h p hp
    | some child =>
      simp only [insert, hc, noDeadBranch, noDeadBranchList_iff]
      intro p hp
      rcases mem_setChild hp with hp | hp
      · subst hp
        exact ⟨hasWord_insert _ r, ih _ (h _ (mem_of_childAt hc)).2⟩
      · exact h p hp

theorem noDeadBranch_nodeAt (t : TrieNode) (P : List Char) (n : TrieNode)
    (h : noDeadBranch t = true) (hP : P ≠ []) (hn : nodeAt t P = some n) :
    hasWord n = true ∧ noDeadBranch n = true := by
  induction P generalizing t with
  | nil => exact absurd rfl hP
  | cons c r ih =>
    obtain ⟨cs, e⟩ := t
    simp only [noDeadBranch, noDeadBranchList_iff] at h
    cases hc : childAt cs c with
    | none => simp [nodeAt, hc] at hn
    | some child =>
      simp only [nodeAt, hc] at hn
      have hchild := h _ (mem_of_childAt hc)
      cases r with
      | nil =>
        cases child
        simp only [nodeAt, Option.some.injEq] at hn
        subst hn
        exact hchild
      | cons c2 r2 => exact ih child hchild.2 (by simp) hn

theorem isEndOfWord_of_childless (n : TrieNode) (h : hasWord n = true)
    (hc : n.children = []) : n.isEndOfWord = true := by
  obtain ⟨cs, e⟩ := n
  simp only [children] at hc
  subst hc
  simpa [hasWord, hasWordList, isEndOfWord] using h

end TrieNode

namespace Trie

theorem noDeadBranch_insertAll (t : Trie) (ws : List (List Char))
    (h : t.root.noDeadBranch = true) : (t.insertAll ws).root.noDeadBranch = true := by
  induction ws generalizing t with
  | nil => simpa [insertAll] using h
  | cons w rest ih =>
    have h2 := ih (t.insert w) (TrieNode.noDeadBranch_insert t.root w h)
    simpa [insertAll] using h2

end Trie

/-- Claim C19: no dead branches: in every trie reached from a fresh `Trie` by a
finite sequence of inserts, every node other than the root has a node with
`isEndOfWord = true` in its subtree, itself included, so every childless
non-root node is terminal; and every `insert` preserves this invariant. -/
theorem C19_no_dead_branches (ws : List (List Char)) :
    (Trie.new.insertAll ws).root.noDeadBranch = true ∧
    (∀ P n, P ≠ [] → TrieNode.nodeAt (Trie.new.insertAll ws).root P = some n →
      n.hasWord = true ∧ (n.children = [] → n.isEndOfWord = true)) ∧
    (∀ (t : Trie) (W : List Char), t.root.noDeadBranch = true →
      (t.insert W).root.noDeadBranch = true) := by
  have hb : (Trie.new.insertAll ws).root.noDeadBranch = true :=
    Trie.noDeadBranch_insertAll _ ws TrieNode.noDeadBranch_new
  refine ⟨hb, ?_, ?_⟩
  · intro P n hP hn
    have h := TrieNode.noDeadBranch_nodeAt _ P n hb hP hn
    exact ⟨h.1, TrieNode.isEndOfWord_of_childless n h.1⟩
  · intro t W h
    exact TrieNode.noDeadBranch_insert t.root W h

theorem C19_no_dead_branches_witness :
    (Trie.new.insertAll [['d','o'], ['a']]).root.noDeadBranch = true ∧
    (TrieNode.nodeAt (Trie.new.insertAll [['d','o'], ['a']]).root ['d'] =
      some (TrieNode.mk [('o', TrieNode.mk [] true)] false) ∧
      (TrieNode.mk [('o', TrieNode.mk [] true)] false).hasWord = true) ∧
    ((Trie.mk (TrieNode.mk [('x', TrieNode.mk [] true)] false)).root.noDeadBranch = true ∧
      ((Trie.mk (TrieNode.mk [('x', TrieNode.mk [] true)] false)).insert
        ['x','y']).root.noDeadBranch = true) :=
  ⟨(C19_no_dead_branches [['d','o'], ['a']]).1,
    ⟨by rfl, ((C19_no_dead_branches [['d','o'], ['a']]).2.1 ['d'] _ (by simp) (by rfl)).1⟩,
    ⟨by decide, (C19_no_dead_branches []).2.2
      (Trie.mk (TrieNode.mk [('x', TrieNode.mk [] true)] false)) ['x','y'] (by decide)⟩⟩
